import Mathlib

/-!
# Lookup statistics of gcache (`stats.go`)

A shallow embedding of the counter bank `stats` and of its eight methods,
followed by the properties established about them.

* 64-bit unsigned counters are natural numbers; every addition the source performs on
  `uint64` is reduced modulo `2 ^ 64`.
* A callback (`MetricsFunc`) is a script: the calls it makes into the same bank, each
  continued with the value the bank returned.  Every invocation of a callback is appended
  to a log together with the two arguments it received.
* A callback may call an increment of the bank that invokes it, so the increments carry a
  bound on the nesting depth of such calls and return `none` when it is exceeded.
* `HitRate` returns the return statement it took and the operands of the division.
  `Rate.val` is the exact rational quotient, before any rounding; `Rate.f64` is the value
  of the `float64` returned, with both conversions and the division rounded to nearest,
  ties to even.
* Concurrent callers are a step machine: each increment is cut into its atomic steps, and
  a schedule says which caller steps next. The operations of `sync/atomic` are taken as
  sequentially consistent.
-/

namespace Gcache

/-- Modulus of `uint64` arithmetic. -/
def u64 : Nat := 2 ^ 64

/-- The three outcomes of a lookup, one per counter. -/
inductive Kind where
  | hit
  | miss
  | expire
  deriving DecidableEq, Repr

/-- The methods of `stats`. -/
inductive Op where
  | IncrHitCount
  | IncrMissCount
  | IncrExpireCount
  | HitCount
  | MissCount
  | ExpireCount
  | LookupCount
  | HitRate
  deriving DecidableEq, Repr

/-- Result of `HitRate`: the constant `0.0` of the guarded return, or the quotient
`float64(num) / float64(den)` of the final return. -/
inductive Rate where
  | zero
  | quot (num den : Nat)
  deriving DecidableEq, Repr

/-- Exact value of a `Rate`, before rounding to `float64`. -/
def Rate.val : Rate → ℚ
  | .zero => 0
  | .quot num den => (num : ℚ) / (den : ℚ)

/-- Value a method hands back to its caller. -/
inductive Val where
  | count (n : Nat)
  | rate (r : Rate)
  deriving DecidableEq, Repr

/-- Body of a callback: return, or call a method of the bank and go on with its result. -/
inductive Script where
  | ret
  | call (op : Op) (next : Val → Script)

/-- Modelled from the spec: the type `MetricsFunc` is declared outside `stats.go`; the spec
gives it as an optional function reference `(currentCount: uint64, delta: int64) -> void`.
The body is the script the function runs on these two arguments. -/
abbrev MetricsFunc : Type := Nat → Int → Script

/-- The struct `stats`. A nil callback is `none`. -/
structure stats where
  hitCount : Nat
  missCount : Nat
  expireCount : Nat
  hitMetrics : Option MetricsFunc
  missMetrics : Option MetricsFunc
  expireMetrics : Option MetricsFunc

/-- The bank `&stats{}`. -/
def stats.fresh : stats := ⟨0, 0, 0, none, none, none⟩

/-- One invocation of a callback: which one, and the two arguments passed. -/
structure Event where
  kind : Kind
  current : Nat
  delta : Int
  deriving DecidableEq, Repr

/-- A bank together with the log of callback invocations so far. -/
abbrev World : Type := stats × List Event

/-- `HitCount`: load of `hitCount`. -/
def HitCount (st : stats) : Nat := st.hitCount

/-- `MissCount`: load of `missCount`. -/
def MissCount (st : stats) : Nat := st.missCount

/-- `ExpireCount`: load of `expireCount`. -/
def ExpireCount (st : stats) : Nat := st.expireCount

/-- `LookupCount`: `st.HitCount() + st.MissCount() + st.ExpireCount()` on `uint64`. -/
def LookupCount (st : stats) : Nat :=
  ((HitCount st + MissCount st) % u64 + ExpireCount st) % u64

/-- `HitRate`. -/
def HitRate (st : stats) : Rate :=
  let hc := HitCount st
  let mc := MissCount st
  let ec := ExpireCount st
  let total := ((hc + mc) % u64 + ec) % u64
  if total = 0 then Rate.zero else Rate.quot ((hc + ec) % u64) total

/-- Run the body of a callback; `callee` performs the calls it makes into the bank. -/
def runScript (callee : Op → World → Option (Val × World)) : Script → World → Option World
  | .ret, w => some w
  | .call op next, w =>
    match callee op w with
    | none => none
    | some (v, w1) => runScript callee (next v) w1

/-- Body of `IncrHitCount`. -/
def IncrHitCountBody (callee : Op → World → Option (Val × World)) (w : World) :
    Option (Nat × World) :=
  let st1 : stats := { w.1 with hitCount := (w.1.hitCount + 1) % u64 }
  match st1.hitMetrics with
  | none => some (HitCount st1, (st1, w.2))
  | some f =>
    match runScript callee (f (HitCount st1) 1) (st1, w.2 ++ [⟨Kind.hit, HitCount st1, 1⟩]) with
    | none => none
    | some w2 => some (HitCount w2.1, w2)

/-- Body of `IncrMissCount`. -/
def IncrMissCountBody (callee : Op → World → Option (Val × World)) (w : World) :
    Option (Nat × World) :=
  let st1 : stats := { w.1 with missCount := (w.1.missCount + 1) % u64 }
  match st1.missMetrics with
  | none => some (MissCount st1, (st1, w.2))
  | some f =>
    match runScript callee (f (MissCount st1) 1)
        (st1, w.2 ++ [⟨Kind.miss, MissCount st1, 1⟩]) with
    | none => none
    | some w2 => some (MissCount w2.1, w2)

/-- Body of `IncrExpireCount`. -/
def IncrExpireCountBody (callee : Op → World → Option (Val × World)) (w : World) :
    Option (Nat × World) :=
  let st1 : stats := { w.1 with expireCount := (w.1.expireCount + 1) % u64 }
  match st1.expireMetrics with
  | none => some (ExpireCount st1, (st1, w.2))
  | some f =>
    match runScript callee (f (ExpireCount st1) 1)
        (st1, w.2 ++ [⟨Kind.expire, ExpireCount st1, 1⟩]) with
    | none => none
    | some w2 => some (ExpireCount w2.1, w2)

/-- Wrap the result of an increment as a `Val`. -/
def asCount : Option (Nat × World) → Option (Val × World)
  | none => none
  | some (n, w) => some (Val.count n, w)

/-- The bank as seen by a caller: `perform depth op` runs the method `op`; callbacks may
nest calls of increments up to `depth` levels deep. The reads need no depth. -/
def perform : Nat → Op → World → Option (Val × World)
  | _, Op.HitCount, w => some (Val.count (HitCount w.1), w)
  | _, Op.MissCount, w => some (Val.count (MissCount w.1), w)
  | _, Op.ExpireCount, w => some (Val.count (ExpireCount w.1), w)
  | _, Op.LookupCount, w => some (Val.count (LookupCount w.1), w)
  | _, Op.HitRate, w => some (Val.rate (HitRate w.1), w)
  | 0, Op.IncrHitCount, _ => none
  | 0, Op.IncrMissCount, _ => none
  | 0, Op.IncrExpireCount, _ => none
  | n + 1, Op.IncrHitCount, w => asCount (IncrHitCountBody (perform n) w)
  | n + 1, Op.IncrMissCount, w => asCount (IncrMissCountBody (perform n) w)
  | n + 1, Op.IncrExpireCount, w => asCount (IncrExpireCountBody (perform n) w)

/-- `IncrHitCount`, its callback free to nest increments `depth` levels deep. -/
def IncrHitCount (depth : Nat) (w : World) : Option (Nat × World) :=
  IncrHitCountBody (perform depth) w

/-- `IncrMissCount`, its callback free to nest increments `depth` levels deep. -/
def IncrMissCount (depth : Nat) (w : World) : Option (Nat × World) :=
  IncrMissCountBody (perform depth) w

/-- `IncrExpireCount`, its callback free to nest increments `depth` levels deep. -/
def IncrExpireCount (depth : Nat) (w : World) : Option (Nat × World) :=
  IncrExpireCountBody (perform depth) w

/-- The increment that records an outcome of the given kind. -/
def Kind.incr : Kind → Op
  | .hit => Op.IncrHitCount
  | .miss => Op.IncrMissCount
  | .expire => Op.IncrExpireCount

/-- A caller performing the methods `ops` one after the other. -/
def callSeq (depth : Nat) : List Op → World → Option World
  | [], w => some w
  | op :: ops, w =>
    match perform (depth + 1) op w with
    | none => none
    | some (_, w1) => callSeq depth ops w1

/-- Methods that only load counters. -/
def Op.isRead : Op → Bool
  | .IncrHitCount => false
  | .IncrMissCount => false
  | .IncrExpireCount => false
  | _ => true

/-- A script that calls no increment, whatever values the bank returns to it. -/
def Script.readOnly : Script → Prop
  | .ret => True
  | .call op next => op.isRead = true ∧ ∀ v, (next v).readOnly

/-- A callback slot that is nil or holds a function whose body calls no increment. -/
def quiet (cb : Option MetricsFunc) : Prop :=
  ∀ f, cb = some f → ∀ u d, (f u d).readOnly

/-- A callback that only records its arguments: its body makes no call into the bank. -/
def recorder : MetricsFunc := fun _ _ => Script.ret

/-- Counter that records outcomes of the given kind. -/
def Kind.counter : Kind → stats → Nat
  | .hit, st => st.hitCount
  | .miss, st => st.missCount
  | .expire, st => st.expireCount

/-- Callback slot of the given kind. -/
def Kind.metrics : Kind → stats → Option MetricsFunc
  | .hit, st => st.hitMetrics
  | .miss, st => st.missMetrics
  | .expire, st => st.expireMetrics

/-- The increment method of the given kind. -/
def Kind.run : Kind → Nat → World → Option (Nat × World)
  | .hit => IncrHitCount
  | .miss => IncrMissCount
  | .expire => IncrExpireCount

/-- A fresh bank whose hit callback calls `IncrHitCount` once more when it is handed the
count `1`, and returns at once otherwise. -/
def reentrantBank : stats :=
  { stats.fresh with
    hitMetrics := some (fun u _ =>
      if u = 1 then Script.call Op.IncrHitCount (fun _ => Script.ret) else Script.ret) }

/-- A fresh bank with a recording callback in each slot, as built by `TestStatsMetrics`. -/
def recording : stats := ⟨0, 0, 0, some recorder, some recorder, some recorder⟩

/-- A fresh bank whose hit callback calls `IncrMissCount`, and whose miss callback only
records. -/
def missOnHit : stats :=
  { stats.fresh with
    hitMetrics := some (fun _ _ => Script.call Op.IncrMissCount (fun _ => Script.ret))
    missMetrics := some recorder }

/-- A bank without callbacks whose hit counter holds the largest `uint64`. -/
def fullHits : stats := ⟨2 ^ 64 - 1, 0, 0, none, none, none⟩

/-- The bank with the values of `hitCount` and `expireCount` exchanged. -/
def stats.swapHitExpire (st : stats) : stats :=
  { st with hitCount := st.expireCount, expireCount := st.hitCount }

/-! ### Concurrent callers

Each increment is a sequence of atomic steps on the shared bank: the `atomic.AddUint64`,
the test of the callback slot with the load of the argument, the invocation of the callback,
and the load of the value returned. Callers are interleaved step by step. The body of a
callback is taken to make no call into the bank. -/

/-- Where a caller stands inside an increment. -/
inductive Pc where
  | add
  | test
  | invoke (current : Nat)
  | load
  | done (ret : Nat)
  deriving DecidableEq, Repr

/-- One atomic step of `IncrHitCount`. -/
def IncrHitCountStep : Pc → World → Pc × World
  | .add, w => (.test, ({ w.1 with hitCount := (w.1.hitCount + 1) % u64 }, w.2))
  | .test, w =>
    match w.1.hitMetrics with
    | none => (.load, w)
    | some _ => (.invoke (HitCount w.1), w)
  | .invoke v, w => (.load, (w.1, w.2 ++ [⟨Kind.hit, v, 1⟩]))
  | .load, w => (.done (HitCount w.1), w)
  | .done r, w => (.done r, w)

/-- One atomic step of `IncrMissCount`. -/
def IncrMissCountStep : Pc → World → Pc × World
  | .add, w => (.test, ({ w.1 with missCount := (w.1.missCount + 1) % u64 }, w.2))
  | .test, w =>
    match w.1.missMetrics with
    | none => (.load, w)
    | some _ => (.invoke (MissCount w.1), w)
  | .invoke v, w => (.load, (w.1, w.2 ++ [⟨Kind.miss, v, 1⟩]))
  | .load, w => (.done (MissCount w.1), w)
  | .done r, w => (.done r, w)

/-- One atomic step of `IncrExpireCount`. -/
def IncrExpireCountStep : Pc → World → Pc × World
  | .add, w => (.test, ({ w.1 with expireCount := (w.1.expireCount + 1) % u64 }, w.2))
  | .test, w =>
    match w.1.expireMetrics with
    | none => (.load, w)
    | some _ => (.invoke (ExpireCount w.1), w)
  | .invoke v, w => (.load, (w.1, w.2 ++ [⟨Kind.expire, v, 1⟩]))
  | .load, w => (.done (ExpireCount w.1), w)
  | .done r, w => (.done r, w)

/-- A caller: the increment it has invoked and how far it has got. -/
structure Caller where
  kind : Kind
  pc : Pc
  deriving DecidableEq, Repr

/-- One atomic step of a caller. A caller that has returned stays as it is. -/
def Caller.step (c : Caller) (w : World) : Caller × World :=
  match c.kind with
  | .hit => (⟨Kind.hit, (IncrHitCountStep c.pc w).1⟩, (IncrHitCountStep c.pc w).2)
  | .miss => (⟨Kind.miss, (IncrMissCountStep c.pc w).1⟩, (IncrMissCountStep c.pc w).2)
  | .expire => (⟨Kind.expire, (IncrExpireCountStep c.pc w).1⟩, (IncrExpireCountStep c.pc w).2)

/-- Whether the caller has returned. -/
def Caller.returned (c : Caller) : Bool :=
  match c.pc with
  | .done _ => true
  | _ => false

/-- The shared bank and the callers working on it. -/
structure Machine where
  world : World
  callers : List Caller

/-- The callers `ks`, each about to start its increment on the bank `w`. -/
def Machine.start (w : World) (ks : List Kind) : Machine :=
  ⟨w, ks.map (fun k => ⟨k, Pc.add⟩)⟩

/-- Caller number `i` takes its next atomic step; a number that names no caller is
skipped. -/
def Machine.step (m : Machine) (i : Nat) : Machine :=
  match m.callers[i]? with
  | none => m
  | some c => ⟨(c.step m.world).2, m.callers.set i (c.step m.world).1⟩

/-- An interleaving: the callers step in the order the schedule names them. -/
def Machine.run (m : Machine) (schedule : List Nat) : Machine :=
  schedule.foldl Machine.step m

/-- Every caller has returned. -/
def Machine.finished (m : Machine) : Prop :=
  ∀ c ∈ m.callers, c.returned = true

/-- The schedule on which `n` callers run one after the other. -/
def seqSchedule : Nat → List Nat
  | 0 => []
  | n + 1 => [0, 0, 0, 0] ++ (seqSchedule n).map (fun i => i + 1)

instance Machine.decidableFinished (m : Machine) : Decidable m.finished :=
  inferInstanceAs (Decidable (∀ c ∈ m.callers, c.returned = true))

/-- Whether a caller of kind `k` is still to execute its `atomic.AddUint64`. -/
def owes (k : Kind) (c : Caller) : Nat :=
  if c.kind = k ∧ c.pc = Pc.add then 1 else 0

/-- Number of callers of kind `k` that have not yet executed their `atomic.AddUint64`. -/
def pending (k : Kind) : List Caller → Nat
  | [] => 0
  | c :: cs => owes k c + pending k cs

/-- A bank without callbacks whose miss counter holds the largest `uint64`. -/
def fullMisses : stats := ⟨0, 2 ^ 64 - 1, 0, none, none, none⟩

/-- A relation between banks that holds across each of the three stores to a counter and
across an append to the log, and is reflexive and transitive. -/
structure StepClosed (R : World → World → Prop) : Prop where
  refl : ∀ w, R w w
  trans : ∀ a b c, R a b → R b c → R a c
  hit : ∀ w : World, R w ({ w.1 with hitCount := (w.1.hitCount + 1) % u64 }, w.2)
  miss : ∀ w : World, R w ({ w.1 with missCount := (w.1.missCount + 1) % u64 }, w.2)
  expire : ∀ w : World, R w ({ w.1 with expireCount := (w.1.expireCount + 1) % u64 }, w.2)
  log : ∀ (w : World) (e : Event), R w (w.1, w.2 ++ [e])

/-- The bank `missOnHit` after one hit has been counted. -/
def missOnHitOne : stats := { missOnHit with hitCount := 1 }

/-! ### The `float64` returned by `HitRate`

A binary64 value is kept as the rational it denotes. Conversions and the division round
to the nearest value with a 53-bit significand, ties to the even significand. The operands
are below `2 ^ 64`, so every quotient formed is `0` or lies between `2 ^ (-64)` and
`2 ^ 64`, inside the normal range of binary64. -/

/-- Nearest integer to `n / d`, ties to even. -/
def roundHalfEven (n d : Nat) : Nat :=
  if 2 * (n % d) < d then n / d
  else if d < 2 * (n % d) then n / d + 1
  else if (n / d) % 2 = 0 then n / d
  else n / d + 1

/-- The conversion `float64(n)` of a `uint64`: exact up to 53 bits, rounded above. The
result is an integer. -/
def f64OfNat (n : Nat) : Nat :=
  if Nat.log2 n ≤ 52 then n
  else roundHalfEven n (2 ^ (Nat.log2 n - 52)) * 2 ^ (Nat.log2 n - 52)

/-- Exponent of the binary64 quotient: the `e` with `2 ^ e ≤ a / b < 2 ^ (e + 1)`, for
`a` and `b` positive. -/
def quotExp (a b : Nat) : Int :=
  if b * 2 ^ ((Nat.log2 a : Int) - (Nat.log2 b : Int)).toNat
      ≤ a * 2 ^ ((Nat.log2 b : Int) - (Nat.log2 a : Int)).toNat
  then (Nat.log2 a : Int) - (Nat.log2 b : Int)
  else (Nat.log2 a : Int) - (Nat.log2 b : Int) - 1

/-- Significand, scaled to an integer of 53 bits, of the binary64 quotient `a / b`. -/
def quotSig (a b : Nat) : Nat :=
  roundHalfEven (a * 2 ^ (52 - quotExp a b).toNat) (b * 2 ^ (quotExp a b - 52).toNat)

/-- The division `x / y` of two `float64` with integer values `a` and `b`, `b` positive. -/
def f64Div (a b : Nat) : ℚ :=
  if a = 0 then 0 else (quotSig a b : ℚ) * 2 ^ (quotExp a b - 52)

/-- Value of the `float64` that `HitRate` returns. -/
def Rate.f64 : Rate → ℚ
  | .zero => 0
  | .quot num den => f64Div (f64OfNat num) (f64OfNat den)

/-- A bank without callbacks with `2 ^ 60` hits and one miss. -/
def manyHitsOneMiss : stats := ⟨2 ^ 60, 1, 0, none, none, none⟩

/-! ## Basic facts -/

theorem u64_eq : u64 = 18446744073709551616 := by decide

theorem perform_isRead (depth : Nat) (op : Op) (h : op.isRead = true) (w : World) :
    ∃ v, perform depth op w = some (v, w) := by
  cases op <;> cases depth <;> simp [Op.isRead, perform] at h ⊢

theorem runScript_readOnly (depth : Nat) (s : Script) (h : s.readOnly) (w : World) :
    runScript (perform depth) s w = some w := by
  induction s with
  | ret => rfl
  | call op next ih =>
    obtain ⟨hop, hnext⟩ := h
    obtain ⟨v, hv⟩ := perform_isRead depth op hop w
    simp only [runScript, hv]
    exact ih v (hnext v)

theorem quiet_none : quiet none := by
  intro f hf; cases hf

theorem quiet_recorder : quiet (some recorder) := by
  intro f hf u d
  cases hf
  exact True.intro

theorem IncrHitCount_nil (depth : Nat) (w : World) (h : w.1.hitMetrics = none) :
    IncrHitCount depth w
      = some ((w.1.hitCount + 1) % u64,
          ({ w.1 with hitCount := (w.1.hitCount + 1) % u64 }, w.2)) := by
  simp [IncrHitCount, IncrHitCountBody, h, HitCount]

theorem IncrMissCount_nil (depth : Nat) (w : World) (h : w.1.missMetrics = none) :
    IncrMissCount depth w
      = some ((w.1.missCount + 1) % u64,
          ({ w.1 with missCount := (w.1.missCount + 1) % u64 }, w.2)) := by
  simp [IncrMissCount, IncrMissCountBody, h, MissCount]

theorem IncrExpireCount_nil (depth : Nat) (w : World) (h : w.1.expireMetrics = none) :
    IncrExpireCount depth w
      = some ((w.1.expireCount + 1) % u64,
          ({ w.1 with expireCount := (w.1.expireCount + 1) % u64 }, w.2)) := by
  simp [IncrExpireCount, IncrExpireCountBody, h, ExpireCount]

theorem IncrHitCount_some (depth : Nat) (w : World) (f : MetricsFunc)
    (h : w.1.hitMetrics = some f) (hq : ∀ u d, (f u d).readOnly) :
    IncrHitCount depth w
      = some ((w.1.hitCount + 1) % u64,
          ({ w.1 with hitCount := (w.1.hitCount + 1) % u64 },
            w.2 ++ [⟨Kind.hit, (w.1.hitCount + 1) % u64, 1⟩])) := by
  simp [IncrHitCount, IncrHitCountBody, h, HitCount, runScript_readOnly _ _ (hq _ _)]

theorem IncrMissCount_some (depth : Nat) (w : World) (f : MetricsFunc)
    (h : w.1.missMetrics = some f) (hq : ∀ u d, (f u d).readOnly) :
    IncrMissCount depth w
      = some ((w.1.missCount + 1) % u64,
          ({ w.1 with missCount := (w.1.missCount + 1) % u64 },
            w.2 ++ [⟨Kind.miss, (w.1.missCount + 1) % u64, 1⟩])) := by
  simp [IncrMissCount, IncrMissCountBody, h, MissCount, runScript_readOnly _ _ (hq _ _)]

theorem IncrExpireCount_some (depth : Nat) (w : World) (f : MetricsFunc)
    (h : w.1.expireMetrics = some f) (hq : ∀ u d, (f u d).readOnly) :
    IncrExpireCount depth w
      = some ((w.1.expireCount + 1) % u64,
          ({ w.1 with expireCount := (w.1.expireCount + 1) % u64 },
            w.2 ++ [⟨Kind.expire, (w.1.expireCount + 1) % u64, 1⟩])) := by
  simp [IncrExpireCount, IncrExpireCountBody, h, ExpireCount, runScript_readOnly _ _ (hq _ _)]

theorem perform_IncrHitCount (depth : Nat) (w : World) :
    perform (depth + 1) Op.IncrHitCount w = asCount (IncrHitCount depth w) := rfl

theorem perform_IncrMissCount (depth : Nat) (w : World) :
    perform (depth + 1) Op.IncrMissCount w = asCount (IncrMissCount depth w) := rfl

theorem perform_IncrExpireCount (depth : Nat) (w : World) :
    perform (depth + 1) Op.IncrExpireCount w = asCount (IncrExpireCount depth w) := rfl

/-- Increments on a bank without callbacks add, modulo `2 ^ 64`, the number of calls of each
kind to the matching counter, in whatever order they come. -/
theorem callSeq_nil_callbacks (depth : Nat) (ks : List Kind) (a b c : Nat) (tr : List Event)
    (ha : a < u64) (hb : b < u64) (hc : c < u64) :
    callSeq depth (ks.map Kind.incr) (⟨a, b, c, none, none, none⟩, tr)
      = some (⟨(a + ks.count Kind.hit) % u64, (b + ks.count Kind.miss) % u64,
          (c + ks.count Kind.expire) % u64, none, none, none⟩, tr) := by
  induction ks generalizing a b c with
  | nil => simp [callSeq, Nat.mod_eq_of_lt ha, Nat.mod_eq_of_lt hb, Nat.mod_eq_of_lt hc]
  | cons k ks ih =>
    have hpos : 0 < u64 := by rw [u64_eq]; decide
    cases k
    · simp only [List.map_cons, Kind.incr, callSeq, perform_IncrHitCount,
        IncrHitCount_nil depth (⟨a, b, c, none, none, none⟩, tr) rfl, asCount]
      rw [ih ((a + 1) % u64) b c (Nat.mod_lt _ hpos) hb hc]
      simp [List.count_cons, Nat.add_assoc, Nat.add_comm 1]
    · simp only [List.map_cons, Kind.incr, callSeq, perform_IncrMissCount,
        IncrMissCount_nil depth (⟨a, b, c, none, none, none⟩, tr) rfl, asCount]
      rw [ih a ((b + 1) % u64) c ha (Nat.mod_lt _ hpos) hc]
      simp [List.count_cons, Nat.add_assoc, Nat.add_comm 1]
    · simp only [List.map_cons, Kind.incr, callSeq, perform_IncrExpireCount,
        IncrExpireCount_nil depth (⟨a, b, c, none, none, none⟩, tr) rfl, asCount]
      rw [ih a b ((c + 1) % u64) ha hb (Nat.mod_lt _ hpos)]
      simp [List.count_cons, Nat.add_assoc, Nat.add_comm 1]

/-! ## Counting from a fresh bank -/

/-- C1. From the fresh bank `stats{}`, any sequence of increments holding `h` calls of
`IncrHitCount`, `m` of `IncrMissCount` and `e` of `IncrExpireCount`, with
`h + m + e < 2 ^ 64`, runs to the end and leaves the bank with counters `h`, `m`, `e`:
`HitCount` is `h`, `MissCount` is `m`, `ExpireCount` is `e` and `LookupCount` is
`h + m + e`, whatever the order of the calls. -/
theorem fresh_counts (depth : Nat) (ks : List Kind) (h m e : Nat)
    (hh : ks.count Kind.hit = h) (hm : ks.count Kind.miss = m)
    (he : ks.count Kind.expire = e) (hlt : h + m + e < 2 ^ 64) :
    ∃ w, callSeq depth (ks.map Kind.incr) (stats.fresh, []) = some w
      ∧ w = (⟨h, m, e, none, none, none⟩, [])
      ∧ HitCount w.1 = h ∧ MissCount w.1 = m ∧ ExpireCount w.1 = e
      ∧ LookupCount w.1 = h + m + e := by
  have h64 : u64 = 2 ^ 64 := rfl
  have hpos : 0 < u64 := by rw [u64_eq]; decide
  have key := callSeq_nil_callbacks depth ks 0 0 0 [] hpos hpos hpos
  rw [hh, hm, he] at key
  simp only [Nat.zero_add] at key
  rw [Nat.mod_eq_of_lt (by omega), Nat.mod_eq_of_lt (by omega),
    Nat.mod_eq_of_lt (by omega)] at key
  refine ⟨_, key, rfl, rfl, rfl, rfl, ?_⟩
  simp only [LookupCount, HitCount, MissCount, ExpireCount]
  rw [Nat.mod_eq_of_lt (show h + m < u64 by omega),
    Nat.mod_eq_of_lt (show h + m + e < u64 by omega)]

/-- Witness for C1: the first case of `TestStats` (three hits, then one miss)
and the same four calls in another order. -/
theorem fresh_counts_witness :
    (∃ w, callSeq 0 ([Kind.hit, Kind.hit, Kind.hit, Kind.miss].map Kind.incr)
        (stats.fresh, []) = some w
      ∧ w = (⟨3, 1, 0, none, none, none⟩, [])
      ∧ HitCount w.1 = 3 ∧ MissCount w.1 = 1 ∧ ExpireCount w.1 = 0
      ∧ LookupCount w.1 = 3 + 1 + 0)
    ∧ (∃ w, callSeq 0 ([Kind.hit, Kind.miss, Kind.hit, Kind.hit].map Kind.incr)
        (stats.fresh, []) = some w
      ∧ w = (⟨3, 1, 0, none, none, none⟩, [])
      ∧ HitCount w.1 = 3 ∧ MissCount w.1 = 1 ∧ ExpireCount w.1 = 0
      ∧ LookupCount w.1 = 3 + 1 + 0) :=
  ⟨fresh_counts 0 [Kind.hit, Kind.hit, Kind.hit, Kind.miss] 3 1 0
      (by decide) (by decide) (by decide) (by decide),
    fresh_counts 0 [Kind.hit, Kind.miss, Kind.hit, Kind.hit] 3 1 0
      (by decide) (by decide) (by decide) (by decide)⟩

/-! ## The hit rate -/

theorem HitRate_of_lt (st : stats)
    (h0 : 0 < st.hitCount + st.missCount + st.expireCount)
    (hlt : st.hitCount + st.missCount + st.expireCount < u64) :
    HitRate st = Rate.quot (st.hitCount + st.expireCount)
      (st.hitCount + st.missCount + st.expireCount) := by
  simp only [HitRate, HitCount, MissCount, ExpireCount]
  rw [Nat.mod_eq_of_lt (show st.hitCount + st.missCount < u64 by omega),
    Nat.mod_eq_of_lt hlt,
    Nat.mod_eq_of_lt (show st.hitCount + st.expireCount < u64 by omega)]
  rw [if_neg (by omega)]

/-- C2. On a bank whose counters `hc`, `mc`, `ec` satisfy `0 < hc + mc + ec < 2 ^ 64`,
`HitRate` takes the division, with numerator `hc + ec` and denominator `hc + mc + ec`,
so its exact value is the rational `(hc + ec) / (hc + mc + ec)`. -/
theorem HitRate_quotient (st : stats)
    (h0 : 0 < st.hitCount + st.missCount + st.expireCount)
    (hlt : st.hitCount + st.missCount + st.expireCount < 2 ^ 64) :
    HitRate st = Rate.quot (st.hitCount + st.expireCount)
        (st.hitCount + st.missCount + st.expireCount)
      ∧ (HitRate st).val = ((st.hitCount + st.expireCount : Nat) : ℚ)
          / ((st.hitCount + st.missCount + st.expireCount : Nat) : ℚ) := by
  have h := HitRate_of_lt st h0 hlt
  exact ⟨h, by rw [h]; rfl⟩

/-- Witness for C2: the cases of `TestStats` with a lookup, each bank
built from the fresh one by the calls of the test. -/
theorem HitRate_quotient_witness :
    (callSeq 0 [Op.IncrHitCount, Op.IncrHitCount, Op.IncrHitCount, Op.IncrMissCount]
          (stats.fresh, []) = some (⟨3, 1, 0, none, none, none⟩, [])
      ∧ (HitRate ⟨3, 1, 0, none, none, none⟩).val = 3 / 4)
    ∧ (callSeq 0 [Op.IncrMissCount] (stats.fresh, [])
          = some (⟨0, 1, 0, none, none, none⟩, [])
      ∧ (HitRate ⟨0, 1, 0, none, none, none⟩).val = 0)
    ∧ (callSeq 0 [Op.IncrHitCount, Op.IncrHitCount, Op.IncrHitCount] (stats.fresh, [])
          = some (⟨3, 0, 0, none, none, none⟩, [])
      ∧ (HitRate ⟨3, 0, 0, none, none, none⟩).val = 1) := by
  refine ⟨⟨rfl, ?_⟩, ⟨rfl, ?_⟩, ⟨rfl, ?_⟩⟩
  · rw [(HitRate_quotient ⟨3, 1, 0, none, none, none⟩ (by decide) (by decide)).2]
    norm_num
  · rw [(HitRate_quotient ⟨0, 1, 0, none, none, none⟩ (by decide) (by decide)).2]
    norm_num
  · rw [(HitRate_quotient ⟨3, 0, 0, none, none, none⟩ (by decide) (by decide)).2]
    norm_num

/-- C3. On every bank, when `LookupCount` returns `0` the guarded return of `HitRate` is
taken: the result is the constant `0.0` and no division is formed; when `HitRate` does
form a division, its denominator is the value of `LookupCount` and is not zero. The fresh
bank is in the first case. -/
theorem HitRate_guard (st : stats) :
    (LookupCount st = 0 → HitRate st = Rate.zero ∧ (HitRate st).val = 0)
    ∧ (∀ num den, HitRate st = Rate.quot num den → den = LookupCount st ∧ den ≠ 0)
    ∧ (HitRate st = Rate.zero ∨ ∃ num den, HitRate st = Rate.quot num den ∧ den ≠ 0)
    ∧ LookupCount stats.fresh = 0 ∧ HitRate stats.fresh = Rate.zero := by
  refine ⟨?_, ?_, ?_, rfl, rfl⟩
  · intro h
    have hz : HitRate st = Rate.zero := by
      simp only [LookupCount] at h
      simp only [HitRate, h, if_true]
    exact ⟨hz, by rw [hz]; rfl⟩
  · intro num den h
    simp only [HitRate] at h
    split_ifs at h with ht
    cases h
    exact ⟨rfl, ht⟩
  · by_cases ht : ((HitCount st + MissCount st) % u64 + ExpireCount st) % u64 = 0
    · left; simp only [HitRate, ht, if_true]
    · right
      exact ⟨(HitCount st + ExpireCount st) % u64, _, by simp only [HitRate, ht, if_false], ht⟩

/-- Witness for C3: the fresh bank, a bank whose counters sum to `2 ^ 64`
(where `LookupCount` wraps to `0`), and the first case of `TestStats`. -/
theorem HitRate_guard_witness :
    (LookupCount stats.fresh = 0 ∧ HitRate stats.fresh = Rate.zero
      ∧ (HitRate stats.fresh).val = 0)
    ∧ (LookupCount ⟨2 ^ 64 - 1, 1, 0, none, none, none⟩ = 0
      ∧ HitRate ⟨2 ^ 64 - 1, 1, 0, none, none, none⟩ = Rate.zero)
    ∧ (HitRate ⟨3, 1, 0, none, none, none⟩ = Rate.quot 3 4
      ∧ 4 = LookupCount ⟨3, 1, 0, none, none, none⟩ ∧ 4 ≠ 0) :=
  ⟨⟨rfl, (HitRate_guard stats.fresh).1 rfl⟩,
    ⟨by decide, ((HitRate_guard ⟨2 ^ 64 - 1, 1, 0, none, none, none⟩).1 (by decide)).1⟩,
    ⟨by decide, (HitRate_guard ⟨3, 1, 0, none, none, none⟩).2.1 3 4 (by decide)⟩⟩

/-! ## Invariants of every run -/

theorem runScript_rel {R : World → World → Prop} (hR : StepClosed R)
    (callee : Op → World → Option (Val × World))
    (hc : ∀ op w v w1, callee op w = some (v, w1) → R w w1)
    (s : Script) (w w1 : World) (h : runScript callee s w = some w1) : R w w1 := by
  induction s generalizing w with
  | ret =>
    simp only [runScript, Option.some.injEq] at h
    subst h
    exact hR.refl w
  | call op next ih =>
    simp only [runScript] at h
    cases hcal : callee op w with
    | none => rw [hcal] at h; cases h
    | some p =>
      obtain ⟨v, w2⟩ := p
      rw [hcal] at h
      exact hR.trans _ _ _ (hc op w v w2 hcal) (ih v w2 h)

theorem IncrHitCountBody_cases (callee : Op → World → Option (Val × World)) (w : World)
    (r : Nat) (w1 : World) (h : IncrHitCountBody callee w = some (r, w1)) :
    r = w1.1.hitCount ∧
      ((w.1.hitMetrics = none
          ∧ w1 = ({ w.1 with hitCount := (w.1.hitCount + 1) % u64 }, w.2))
        ∨ ∃ f, w.1.hitMetrics = some f
          ∧ runScript callee (f ((w.1.hitCount + 1) % u64) 1)
              ({ w.1 with hitCount := (w.1.hitCount + 1) % u64 },
                w.2 ++ [⟨Kind.hit, (w.1.hitCount + 1) % u64, 1⟩]) = some w1) := by
  unfold IncrHitCountBody at h
  cases hm : w.1.hitMetrics with
  | none =>
    simp only [hm, HitCount, Option.some.injEq, Prod.mk.injEq] at h
    obtain ⟨hr, hw⟩ := h
    subst hw
    exact ⟨hr.symm, Or.inl ⟨rfl, by simp [hm]⟩⟩
  | some f =>
    simp only [hm, HitCount] at h
    split at h
    · cases h
    · rename_i w2 hrun
      simp only [Option.some.injEq, Prod.mk.injEq] at h
      obtain ⟨hr, hw⟩ := h
      subst hw
      exact ⟨hr.symm, Or.inr ⟨f, rfl, by simpa [hm] using hrun⟩⟩

theorem IncrMissCountBody_cases (callee : Op → World → Option (Val × World)) (w : World)
    (r : Nat) (w1 : World) (h : IncrMissCountBody callee w = some (r, w1)) :
    r = w1.1.missCount ∧
      ((w.1.missMetrics = none
          ∧ w1 = ({ w.1 with missCount := (w.1.missCount + 1) % u64 }, w.2))
        ∨ ∃ f, w.1.missMetrics = some f
          ∧ runScript callee (f ((w.1.missCount + 1) % u64) 1)
              ({ w.1 with missCount := (w.1.missCount + 1) % u64 },
                w.2 ++ [⟨Kind.miss, (w.1.missCount + 1) % u64, 1⟩]) = some w1) := by
  unfold IncrMissCountBody at h
  cases hm : w.1.missMetrics with
  | none =>
    simp only [hm, MissCount, Option.some.injEq, Prod.mk.injEq] at h
    obtain ⟨hr, hw⟩ := h
    subst hw
    exact ⟨hr.symm, Or.inl ⟨rfl, by simp [hm]⟩⟩
  | some f =>
    simp only [hm, MissCount] at h
    split at h
    · cases h
    · rename_i w2 hrun
      simp only [Option.some.injEq, Prod.mk.injEq] at h
      obtain ⟨hr, hw⟩ := h
      subst hw
      exact ⟨hr.symm, Or.inr ⟨f, rfl, by simpa [hm] using hrun⟩⟩

theorem IncrExpireCountBody_cases (callee : Op → World → Option (Val × World)) (w : World)
    (r : Nat) (w1 : World) (h : IncrExpireCountBody callee w = some (r, w1)) :
    r = w1.1.expireCount ∧
      ((w.1.expireMetrics = none
          ∧ w1 = ({ w.1 with expireCount := (w.1.expireCount + 1) % u64 }, w.2))
        ∨ ∃ f, w.1.expireMetrics = some f
          ∧ runScript callee (f ((w.1.expireCount + 1) % u64) 1)
              ({ w.1 with expireCount := (w.1.expireCount + 1) % u64 },
                w.2 ++ [⟨Kind.expire, (w.1.expireCount + 1) % u64, 1⟩]) = some w1) := by
  unfold IncrExpireCountBody at h
  cases hm : w.1.expireMetrics with
  | none =>
    simp only [hm, ExpireCount, Option.some.injEq, Prod.mk.injEq] at h
    obtain ⟨hr, hw⟩ := h
    subst hw
    exact ⟨hr.symm, Or.inl ⟨rfl, by simp [hm]⟩⟩
  | some f =>
    simp only [hm, ExpireCount] at h
    split at h
    · cases h
    · rename_i w2 hrun
      simp only [Option.some.injEq, Prod.mk.injEq] at h
      obtain ⟨hr, hw⟩ := h
      subst hw
      exact ⟨hr.symm, Or.inr ⟨f, rfl, by simpa [hm] using hrun⟩⟩

theorem IncrHitCountBody_rel {R : World → World → Prop} (hR : StepClosed R)
    (callee : Op → World → Option (Val × World))
    (hc : ∀ op w v w1, callee op w = some (v, w1) → R w w1)
    (w : World) (r : Nat) (w1 : World) (h : IncrHitCountBody callee w = some (r, w1)) :
    R w w1 := by
  obtain ⟨_, hcase⟩ := IncrHitCountBody_cases callee w r w1 h
  rcases hcase with ⟨_, hw⟩ | ⟨f, _, hrun⟩
  · rw [hw]; exact hR.hit w
  · exact hR.trans _ _ _ (hR.hit w)
      (hR.trans _ _ _ (hR.log _ _) (runScript_rel hR callee hc _ _ _ hrun))

theorem IncrMissCountBody_rel {R : World → World → Prop} (hR : StepClosed R)
    (callee : Op → World → Option (Val × World))
    (hc : ∀ op w v w1, callee op w = some (v, w1) → R w w1)
    (w : World) (r : Nat) (w1 : World) (h : IncrMissCountBody callee w = some (r, w1)) :
    R w w1 := by
  obtain ⟨_, hcase⟩ := IncrMissCountBody_cases callee w r w1 h
  rcases hcase with ⟨_, hw⟩ | ⟨f, _, hrun⟩
  · rw [hw]; exact hR.miss w
  · exact hR.trans _ _ _ (hR.miss w)
      (hR.trans _ _ _ (hR.log _ _) (runScript_rel hR callee hc _ _ _ hrun))

theorem IncrExpireCountBody_rel {R : World → World → Prop} (hR : StepClosed R)
    (callee : Op → World → Option (Val × World))
    (hc : ∀ op w v w1, callee op w = some (v, w1) → R w w1)
    (w : World) (r : Nat) (w1 : World) (h : IncrExpireCountBody callee w = some (r, w1)) :
    R w w1 := by
  obtain ⟨_, hcase⟩ := IncrExpireCountBody_cases callee w r w1 h
  rcases hcase with ⟨_, hw⟩ | ⟨f, _, hrun⟩
  · rw [hw]; exact hR.expire w
  · exact hR.trans _ _ _ (hR.expire w)
      (hR.trans _ _ _ (hR.log _ _) (runScript_rel hR callee hc _ _ _ hrun))

theorem asCount_some (o : Option (Nat × World)) (v : Val) (w1 : World)
    (h : asCount o = some (v, w1)) : ∃ r, o = some (r, w1) ∧ v = Val.count r := by
  cases o with
  | none => cases h
  | some p =>
    obtain ⟨n, w2⟩ := p
    simp only [asCount, Option.some.injEq, Prod.mk.injEq] at h
    exact ⟨n, by rw [h.2], h.1.symm⟩

/-- Whatever holds across the three stores and the log append holds across every method,
however deep its callbacks nest. -/
theorem perform_rel {R : World → World → Prop} (hR : StepClosed R) (depth : Nat) :
    ∀ op w v w1, perform depth op w = some (v, w1) → R w w1 := by
  induction depth with
  | zero =>
    intro op w v w1 h
    cases op <;> simp only [perform, Option.some.injEq, Prod.mk.injEq] at h
    all_goals first
      | (obtain ⟨_, hw⟩ := h; subst hw; exact hR.refl _)
      | cases h
  | succ n ih =>
    intro op w v w1 h
    cases op <;> simp only [perform, Option.some.injEq, Prod.mk.injEq] at h
    · obtain ⟨r, hr, _⟩ := asCount_some _ _ _ h
      exact IncrHitCountBody_rel hR _ ih w r w1 hr
    · obtain ⟨r, hr, _⟩ := asCount_some _ _ _ h
      exact IncrMissCountBody_rel hR _ ih w r w1 hr
    · obtain ⟨r, hr, _⟩ := asCount_some _ _ _ h
      exact IncrExpireCountBody_rel hR _ ih w r w1 hr
    all_goals (obtain ⟨_, hw⟩ := h; subst hw; exact hR.refl _)

/-- Runs only append to the log. -/
theorem logGrows_closed : StepClosed (fun w w1 : World => ∃ rest, w1.2 = w.2 ++ rest) where
  refl := fun w => ⟨[], by simp⟩
  trans := by
    rintro a b c ⟨r1, h1⟩ ⟨r2, h2⟩
    exact ⟨r1 ++ r2, by rw [h2, h1, List.append_assoc]⟩
  hit := fun w => ⟨[], by simp⟩
  miss := fun w => ⟨[], by simp⟩
  expire := fun w => ⟨[], by simp⟩
  log := fun w e => ⟨[e], rfl⟩

/-- Runs never store to a callback slot. -/
theorem sameMetrics_closed :
    StepClosed (fun w w1 : World => w1.1.hitMetrics = w.1.hitMetrics
      ∧ w1.1.missMetrics = w.1.missMetrics ∧ w1.1.expireMetrics = w.1.expireMetrics) where
  refl := fun w => ⟨rfl, rfl, rfl⟩
  trans := by
    rintro a b c ⟨h1, h2, h3⟩ ⟨k1, k2, k3⟩
    exact ⟨k1.trans h1, k2.trans h2, k3.trans h3⟩
  hit := fun w => ⟨rfl, rfl, rfl⟩
  miss := fun w => ⟨rfl, rfl, rfl⟩
  expire := fun w => ⟨rfl, rfl, rfl⟩
  log := fun w e => ⟨rfl, rfl, rfl⟩

/-! ## What an increment returns and what it hands to its callback -/

theorem run_log (pre : List Event) (e : Event) (depth : Nat) (s : Script) (st : stats)
    (w1 : World) (h : runScript (perform depth) s (st, pre ++ [e]) = some w1) :
    ∃ rest, w1.2 = pre ++ e :: rest := by
  obtain ⟨rest, hrest⟩ :=
    runScript_rel logGrows_closed (perform depth) (perform_rel logGrows_closed depth) s _ _ h
  exact ⟨rest, by rw [hrest]; simp⟩

theorem run_returns (k : Kind) (depth : Nat) (w : World) (r : Nat) (w1 : World)
    (h : k.run depth w = some (r, w1)) :
    r = k.counter w1.1
      ∧ (k.metrics w.1 = none → w1.2 = w.2)
      ∧ (∀ f, k.metrics w.1 = some f →
          ∃ rest, w1.2 = w.2 ++ ⟨k, (k.counter w.1 + 1) % u64, 1⟩ :: rest) := by
  cases k
  · obtain ⟨hr, hcase⟩ := IncrHitCountBody_cases _ w r w1 h
    refine ⟨hr, ?_, ?_⟩
    · intro hn
      rcases hcase with ⟨_, hw⟩ | ⟨f, hf, _⟩
      · rw [hw]
      · simp only [Kind.metrics] at hn; rw [hn] at hf; cases hf
    · intro f hf
      rcases hcase with ⟨hn, _⟩ | ⟨g, _, hrun⟩
      · simp only [Kind.metrics] at hf; rw [hn] at hf; cases hf
      · exact run_log _ _ _ _ _ _ hrun
  · obtain ⟨hr, hcase⟩ := IncrMissCountBody_cases _ w r w1 h
    refine ⟨hr, ?_, ?_⟩
    · intro hn
      rcases hcase with ⟨_, hw⟩ | ⟨f, hf, _⟩
      · rw [hw]
      · simp only [Kind.metrics] at hn; rw [hn] at hf; cases hf
    · intro f hf
      rcases hcase with ⟨hn, _⟩ | ⟨g, _, hrun⟩
      · simp only [Kind.metrics] at hf; rw [hn] at hf; cases hf
      · exact run_log _ _ _ _ _ _ hrun
  · obtain ⟨hr, hcase⟩ := IncrExpireCountBody_cases _ w r w1 h
    refine ⟨hr, ?_, ?_⟩
    · intro hn
      rcases hcase with ⟨_, hw⟩ | ⟨f, hf, _⟩
      · rw [hw]
      · simp only [Kind.metrics] at hn; rw [hn] at hf; cases hf
    · intro f hf
      rcases hcase with ⟨hn, _⟩ | ⟨g, _, hrun⟩
      · simp only [Kind.metrics] at hf; rw [hn] at hf; cases hf
      · exact run_log _ _ _ _ _ _ hrun

/-- Result of an increment whose callback is nil or calls no increment: the counter of its
kind is bumped, the other fields are kept, and the log gains the one invocation of the
callback when there is one. -/
theorem run_quiet (k : Kind) (depth : Nat) (w : World) (hq : quiet (k.metrics w.1)) :
    ∃ w1, k.run depth w = some ((k.counter w.1 + 1) % u64, w1)
      ∧ k.counter w1.1 = (k.counter w.1 + 1) % u64
      ∧ (∀ j : Kind, j ≠ k → j.counter w1.1 = j.counter w.1)
      ∧ (∀ j : Kind, j.metrics w1.1 = j.metrics w.1)
      ∧ w1.2 = w.2 ++ (if (k.metrics w.1).isSome
          then [⟨k, (k.counter w.1 + 1) % u64, 1⟩] else []) := by
  cases k
  · cases hm : w.1.hitMetrics with
    | none =>
      refine ⟨_, IncrHitCount_nil depth w hm, rfl, ?_, ?_, ?_⟩
      · intro j hj; cases j <;> first | rfl | exact absurd rfl hj
      · intro j; cases j <;> rfl
      · simp [Kind.metrics, hm]
    | some f =>
      refine ⟨_, IncrHitCount_some depth w f hm (hq f hm), rfl, ?_, ?_, ?_⟩
      · intro j hj; cases j <;> first | rfl | exact absurd rfl hj
      · intro j; cases j <;> rfl
      · simp [Kind.metrics, Kind.counter, hm]
  · cases hm : w.1.missMetrics with
    | none =>
      refine ⟨_, IncrMissCount_nil depth w hm, rfl, ?_, ?_, ?_⟩
      · intro j hj; cases j <;> first | rfl | exact absurd rfl hj
      · intro j; cases j <;> rfl
      · simp [Kind.metrics, hm]
    | some f =>
      refine ⟨_, IncrMissCount_some depth w f hm (hq f hm), rfl, ?_, ?_, ?_⟩
      · intro j hj; cases j <;> first | rfl | exact absurd rfl hj
      · intro j; cases j <;> rfl
      · simp [Kind.metrics, Kind.counter, hm]
  · cases hm : w.1.expireMetrics with
    | none =>
      refine ⟨_, IncrExpireCount_nil depth w hm, rfl, ?_, ?_, ?_⟩
      · intro j hj; cases j <;> first | rfl | exact absurd rfl hj
      · intro j; cases j <;> rfl
      · simp [Kind.metrics, hm]
    | some f =>
      refine ⟨_, IncrExpireCount_some depth w f hm (hq f hm), rfl, ?_, ?_, ?_⟩
      · intro j hj; cases j <;> first | rfl | exact absurd rfl hj
      · intro j; cases j <;> rfl
      · simp [Kind.metrics, Kind.counter, hm]

/-- C4, as the code has it. For every bank, every callback configuration and each of
`IncrHitCount`, `IncrMissCount`, `IncrExpireCount`: when the call returns, the value
returned is the counter of its kind as re-read after the callback has returned; a
configured callback was handed, as the first thing logged by the call, the pre-call
counter plus 1 modulo `2 ^ 64` with delta 1, and nothing is logged when the callback is
nil. When the callback is nil or calls no increment of the bank, the call returns, and
the value returned is the pre-call counter plus 1 modulo `2 ^ 64`. -/
theorem increment_values (k : Kind) (depth : Nat) (w : World) :
    (∀ r w1, k.run depth w = some (r, w1) →
        r = k.counter w1.1
        ∧ (k.metrics w.1 = none → w1.2 = w.2)
        ∧ (∀ f, k.metrics w.1 = some f →
            ∃ rest, w1.2 = w.2 ++ ⟨k, (k.counter w.1 + 1) % 2 ^ 64, 1⟩ :: rest))
    ∧ (quiet (k.metrics w.1) →
        ∃ w1, k.run depth w = some ((k.counter w.1 + 1) % 2 ^ 64, w1)
          ∧ k.counter w1.1 = (k.counter w.1 + 1) % 2 ^ 64) := by
  refine ⟨fun r w1 h => run_returns k depth w r w1 h, fun hq => ?_⟩
  obtain ⟨w1, h1, h2, _⟩ := run_quiet k depth w hq
  exact ⟨w1, h1, h2⟩

/-- Counterexample to C4 as stated: on `reentrantBank`, whose hit callback calls
`IncrHitCount` again, the outer `IncrHitCount` hands `1` to the callback, the value of its
own increment, but returns `2`. -/
theorem IncrHitCount_returns_reread :
    ∃ r w1, IncrHitCount 1 (reentrantBank, []) = some (r, w1)
      ∧ (reentrantBank.hitCount + 1) % 2 ^ 64 = 1
      ∧ r = 2
      ∧ r ≠ (reentrantBank.hitCount + 1) % 2 ^ 64
      ∧ w1.2 = [⟨Kind.hit, 1, 1⟩, ⟨Kind.hit, 2, 1⟩] :=
  ⟨2, _, rfl, by decide, rfl, by decide, rfl⟩

/-- Witness for C4: the re-entrant bank, where the call returns `2`, and
the same bank with a recording callback, where it returns `1`. -/
theorem increment_values_witness :
    (Kind.hit.run 1 (reentrantBank, [])
        = some (2, ({ reentrantBank with hitCount := 2 }, [⟨Kind.hit, 1, 1⟩, ⟨Kind.hit, 2, 1⟩]))
      ∧ (2 : Nat) = Kind.hit.counter ({ reentrantBank with hitCount := 2 })
      ∧ ∃ rest, [⟨Kind.hit, 1, 1⟩, ⟨Kind.hit, 2, 1⟩]
          = ([] : List Event) ++ ⟨Kind.hit, (Kind.hit.counter reentrantBank + 1) % 2 ^ 64, 1⟩
              :: rest)
    ∧ (quiet (Kind.hit.metrics ({ stats.fresh with hitMetrics := some recorder }))
      ∧ ∃ w1, Kind.hit.run 0 ({ stats.fresh with hitMetrics := some recorder }, [])
            = some ((0 + 1) % 2 ^ 64, w1)
          ∧ Kind.hit.counter w1.1 = (0 + 1) % 2 ^ 64) := by
  refine ⟨⟨rfl, ?_, ?_⟩, quiet_recorder, ?_⟩
  · exact ((increment_values Kind.hit 1 (reentrantBank, [])).1 2 _ rfl).1
  · exact ((increment_values Kind.hit 1 (reentrantBank, [])).1 2 _ rfl).2.2 _ rfl
  · exact (increment_values Kind.hit 0
      ({ stats.fresh with hitMetrics := some recorder }, [])).2 quiet_recorder

/-! ## Callback fidelity -/

theorem perform_incr (k : Kind) (depth : Nat) (w : World) :
    perform (depth + 1) k.incr w = asCount (k.run depth w) := by
  cases k <;> rfl

/-- `n` calls of one increment whose callback is configured and calls no increment. -/
theorem callSeq_replicate (k : Kind) (depth n : Nat) (w : World) (f : MetricsFunc)
    (hf : k.metrics w.1 = some f) (hq : ∀ u d, (f u d).readOnly) :
    ∃ w1, callSeq depth (List.replicate n k.incr) w = some w1
      ∧ k.counter w1.1 % u64 = (k.counter w.1 + n) % u64
      ∧ (0 < n → k.counter w1.1 = (k.counter w.1 + n) % u64)
      ∧ w1.2 = w.2 ++ (List.range n).map
          (fun i => (⟨k, (k.counter w.1 + i + 1) % u64, 1⟩ : Event)) := by
  induction n generalizing w with
  | zero => exact ⟨w, rfl, rfl, fun h => absurd h (Nat.lt_irrefl 0), by simp⟩
  | succ n ih =>
    have hquiet : quiet (k.metrics w.1) := by
      intro g hg u d
      rw [hf] at hg
      cases hg
      exact hq u d
    obtain ⟨w1, hrun, hcnt, _, hmet, hlog⟩ := run_quiet k depth w hquiet
    obtain ⟨w2, hseq, hc2, _, hl2⟩ := ih w1 (by rw [hmet k, hf])
    have hstep : callSeq depth (List.replicate (n + 1) k.incr) w = some w2 := by
      simp only [List.replicate_succ, callSeq, perform_incr, hrun, asCount]
      exact hseq
    have hmod : ∀ x : Nat, ((k.counter w.1 + 1) % u64 + x) % u64
        = (k.counter w.1 + (x + 1)) % u64 := by
      intro x
      rw [u64_eq]
      omega
    have hc3 : k.counter w2.1 % u64 = (k.counter w.1 + (n + 1)) % u64 := by
      rw [hc2, hcnt, hmod]
    refine ⟨w2, hstep, hc3, ?_, ?_⟩
    · intro _
      cases n with
      | zero =>
        simp only [List.replicate, callSeq, Option.some.injEq] at hseq
        rw [← hseq, hcnt]
      | succ m =>
        obtain ⟨w3, hseq3, _, hc4, _⟩ := ih w1 (by rw [hmet k, hf])
        rw [hseq] at hseq3
        cases hseq3
        rw [hc4 (Nat.succ_pos m), hcnt, hmod]
    · rw [hl2, hlog, hf]
      simp only [Option.isSome_some, if_true, List.append_assoc, List.singleton_append]
      rw [List.range_succ_eq_map, List.map_cons, List.map_map]
      congr 2
      apply List.map_congr_left
      intro i _
      simp only [Function.comp, hcnt]
      congr 1
      rw [Nat.add_assoc ((k.counter w.1 + 1) % u64) i 1, hmod]
      congr 1

theorem range_log_length (k : Kind) (c n : Nat) :
    ((List.range n).map (fun i => (⟨k, (c + i + 1) % u64, 1⟩ : Event))).length = n := by
  rw [List.length_map, List.length_range]

theorem range_log_delta (k : Kind) (n : Nat) (g : Nat → Nat) :
    (((List.range n).map (fun i => (⟨k, g i, 1⟩ : Event))).map Event.delta).sum = (n : Int) := by
  induction n with
  | zero => rfl
  | succ n ih =>
    rw [List.range_succ, List.map_append, List.map_append, List.sum_append, ih]
    simp

/-- `n` calls of the increment of kind `k` on a bank whose counter of that kind is `0` and
whose callback of that kind only records. -/
theorem recorder_run (k : Kind) (depth n : Nat) (st : stats)
    (hc : k.counter st = 0) (hm : k.metrics st = some recorder) :
    ∃ w, callSeq depth (List.replicate n k.incr) (st, []) = some w
      ∧ w.2 = (List.range n).map (fun i => (⟨k, (i + 1) % u64, 1⟩ : Event))
      ∧ k.counter w.1 = n % u64 := by
  obtain ⟨w, hrun, _, hcnt, hlog⟩ :=
    callSeq_replicate k depth n (st, []) recorder hm (fun _ _ => True.intro)
  simp only [hc, Nat.zero_add, List.nil_append] at hcnt hlog
  refine ⟨w, hrun, hlog, ?_⟩
  cases n with
  | zero =>
    simp only [List.replicate, callSeq, Option.some.injEq] at hrun
    rw [← hrun]
    exact hc
  | succ m => exact hcnt (Nat.succ_pos m)

/-- C5, with the bound the counter imposes. On a bank whose counter of one kind is `0` and
whose callback of that kind only records its arguments, `n < 2 ^ 64` calls in a row of the
increment of that kind run to the end and invoke the callback exactly `n` times, with the
arguments `(1, 1)`, `(2, 1)`, ..., `(n, 1)` in this order; the deltas it was handed sum to
`n`, which is also the final value of the counter. This holds for `IncrHitCount`,
`IncrMissCount` and `IncrExpireCount` alike. -/
theorem recorder_fidelity (k : Kind) (depth n : Nat) (st : stats)
    (hc : k.counter st = 0) (hm : k.metrics st = some recorder) (hn : n < 2 ^ 64) :
    ∃ w, callSeq depth (List.replicate n k.incr) (st, []) = some w
      ∧ w.2 = (List.range n).map (fun i => (⟨k, i + 1, 1⟩ : Event))
      ∧ w.2.length = n
      ∧ (w.2.map Event.delta).sum = (n : Int)
      ∧ k.counter w.1 = n
      ∧ (w.2.map Event.delta).sum = (k.counter w.1 : Int) := by
  obtain ⟨w, hrun, hlog, hcnt⟩ := recorder_run k depth n st hc hm
  have hn1 : n < u64 := hn
  have hcnt1 : k.counter w.1 = n := by rw [hcnt, Nat.mod_eq_of_lt hn1]
  have hlog1 : w.2 = (List.range n).map (fun i => (⟨k, i + 1, 1⟩ : Event)) := by
    rw [hlog]
    apply List.map_congr_left
    intro i hi
    rw [Nat.mod_eq_of_lt]
    have := List.mem_range.mp hi
    omega
  have hsum : (w.2.map Event.delta).sum = (n : Int) := by
    rw [hlog1]; exact range_log_delta k n _
  refine ⟨w, hrun, hlog1, ?_, hsum, hcnt1, ?_⟩
  · rw [hlog1, List.length_map, List.length_range]
  · rw [hsum, hcnt1]

/-- Witness for C5: `n = 1000` on the bank of `TestStatsMetrics`, for
each of the three kinds. -/
theorem recorder_fidelity_witness :
    (∃ w, callSeq 0 (List.replicate 1000 Op.IncrHitCount) (recording, []) = some w
      ∧ w.2 = (List.range 1000).map (fun i => (⟨Kind.hit, i + 1, 1⟩ : Event))
      ∧ w.2.length = 1000
      ∧ (w.2.map Event.delta).sum = ((1000 : Nat) : Int)
      ∧ Kind.hit.counter w.1 = 1000
      ∧ (w.2.map Event.delta).sum = (Kind.hit.counter w.1 : Int))
    ∧ (∃ w, callSeq 0 (List.replicate 1000 Op.IncrMissCount) (recording, []) = some w
      ∧ w.2 = (List.range 1000).map (fun i => (⟨Kind.miss, i + 1, 1⟩ : Event))
      ∧ w.2.length = 1000
      ∧ (w.2.map Event.delta).sum = ((1000 : Nat) : Int)
      ∧ Kind.miss.counter w.1 = 1000
      ∧ (w.2.map Event.delta).sum = (Kind.miss.counter w.1 : Int))
    ∧ (∃ w, callSeq 0 (List.replicate 1000 Op.IncrExpireCount) (recording, []) = some w
      ∧ w.2 = (List.range 1000).map (fun i => (⟨Kind.expire, i + 1, 1⟩ : Event))
      ∧ w.2.length = 1000
      ∧ (w.2.map Event.delta).sum = ((1000 : Nat) : Int)
      ∧ Kind.expire.counter w.1 = 1000
      ∧ (w.2.map Event.delta).sum = (Kind.expire.counter w.1 : Int)) :=
  ⟨recorder_fidelity Kind.hit 0 1000 recording rfl rfl (by decide),
    recorder_fidelity Kind.miss 0 1000 recording rfl rfl (by decide),
    recorder_fidelity Kind.expire 0 1000 recording rfl rfl (by decide)⟩

/-- Counterexample to C5 as stated, for `n = 2 ^ 64`: the callback is invoked `2 ^ 64`
times and the deltas sum to `2 ^ 64`, yet the final `HitCount` is `0`, not `n`, and the
last invocation was handed `0`. -/
theorem recorder_wraps :
    ∃ w, callSeq 0 (List.replicate (2 ^ 64) Op.IncrHitCount) (recording, []) = some w
      ∧ w.2.length = 2 ^ 64
      ∧ (w.2.map Event.delta).sum = ((2 ^ 64 : Nat) : Int)
      ∧ HitCount w.1 = 0
      ∧ HitCount w.1 ≠ 2 ^ 64
      ∧ w.2.getLast? = some ⟨Kind.hit, 0, 1⟩ := by
  obtain ⟨w, hrun, hlog, hcnt⟩ := recorder_run Kind.hit 0 (2 ^ 64) recording rfl rfl
  have hz : HitCount w.1 = 0 := by
    have h0 : (2 ^ 64 : Nat) % u64 = 0 := by decide
    rw [h0] at hcnt
    exact hcnt
  refine ⟨w, hrun, ?_, ?_, hz, ?_, ?_⟩
  · rw [hlog, List.length_map, List.length_range]
  · rw [hlog]; exact range_log_delta Kind.hit (2 ^ 64) _
  · rw [hz]; decide
  · have hsplit : (2 ^ 64 : Nat) = (2 ^ 64 - 1) + 1 := by decide
    rw [hlog, hsplit, List.range_succ, List.map_append, List.map_singleton,
      List.getLast?_append, List.getLast?_singleton]
    have h1 : (2 ^ 64 - 1 + 1) % u64 = 0 := by decide
    rw [h1]
    rfl

/-! ## Expired lookups in the hit rate -/

theorem HitRate_congr (a b : stats)
    (hn : (a.hitCount + a.expireCount) % u64 = (b.hitCount + b.expireCount) % u64)
    (ht : ((a.hitCount + a.missCount) % u64 + a.expireCount) % u64
      = ((b.hitCount + b.missCount) % u64 + b.expireCount) % u64) :
    HitRate a = HitRate b := by
  simp only [HitRate, HitCount, MissCount, ExpireCount, hn, ht]

theorem swap_sums (hc mc ec : Nat) :
    (ec + hc) % u64 = (hc + ec) % u64
      ∧ ((ec + mc) % u64 + hc) % u64 = ((hc + mc) % u64 + ec) % u64 := by
  rw [u64_eq]
  constructor <;> omega

theorem bump_sums (hc mc ec : Nat) :
    ((hc + 1) % u64 + ec) % u64 = (hc + (ec + 1) % u64) % u64
      ∧ (((hc + 1) % u64 + mc) % u64 + ec) % u64
        = ((hc + mc) % u64 + (ec + 1) % u64) % u64 := by
  rw [u64_eq]
  constructor <;> omega

/-- C6, for callbacks that stay out of the bank. On every bank: if its hit and expire
callbacks are each nil or call no increment, `IncrHitCount` and `IncrExpireCount` both
return, and `HitRate` and `LookupCount` on the bank left by the one equal `HitRate` and
`LookupCount` on the bank left by the other; and, whatever its callbacks, exchanging the
values of `hitCount` and `expireCount` changes neither `HitRate` nor `LookupCount`. -/
theorem expire_scored_as_hit (depth : Nat) (w : World) :
    (quiet w.1.hitMetrics → quiet w.1.expireMetrics →
      ∃ rh wh re we, IncrHitCount depth w = some (rh, wh)
        ∧ IncrExpireCount depth w = some (re, we)
        ∧ HitRate wh.1 = HitRate we.1 ∧ LookupCount wh.1 = LookupCount we.1)
    ∧ HitRate w.1.swapHitExpire = HitRate w.1
    ∧ LookupCount w.1.swapHitExpire = LookupCount w.1 := by
  refine ⟨fun hh he => ?_, ?_, ?_⟩
  · obtain ⟨wh, hrun, hcnt, hoth, _⟩ := run_quiet Kind.hit depth w hh
    obtain ⟨we, erun, ecnt, eoth, _⟩ := run_quiet Kind.expire depth w he
    have h1 : wh.1.hitCount = (w.1.hitCount + 1) % u64 := hcnt
    have h2 : wh.1.missCount = w.1.missCount := hoth Kind.miss (by decide)
    have h3 : wh.1.expireCount = w.1.expireCount := hoth Kind.expire (by decide)
    have e1 : we.1.hitCount = w.1.hitCount := eoth Kind.hit (by decide)
    have e2 : we.1.missCount = w.1.missCount := eoth Kind.miss (by decide)
    have e3 : we.1.expireCount = (w.1.expireCount + 1) % u64 := ecnt
    have hs := bump_sums w.1.hitCount w.1.missCount w.1.expireCount
    refine ⟨_, wh, _, we, hrun, erun, ?_, ?_⟩
    · apply HitRate_congr
      · rw [h1, h3, e1, e3]; exact hs.1
      · rw [h1, h2, h3, e1, e2, e3]; exact hs.2
    · simp only [LookupCount, HitCount, MissCount, ExpireCount]
      rw [h1, h2, h3, e1, e2, e3]; exact hs.2
  · have hs := swap_sums w.1.hitCount w.1.missCount w.1.expireCount
    exact HitRate_congr _ _ hs.1 hs.2
  · exact (swap_sums w.1.hitCount w.1.missCount w.1.expireCount).2

/-- Witness for C6: the two increments on the bank of `TestStatsMetrics`, and the exchange
on `missOnHitOne`, whose hit callback calls `IncrMissCount`. -/
theorem expire_scored_as_hit_witness :
    (quiet recording.hitMetrics ∧ quiet recording.expireMetrics
      ∧ ∃ rh wh re we, IncrHitCount 0 (recording, []) = some (rh, wh)
        ∧ IncrExpireCount 0 (recording, []) = some (re, we)
        ∧ HitRate wh.1 = HitRate we.1 ∧ LookupCount wh.1 = LookupCount we.1)
    ∧ HitRate missOnHitOne.swapHitExpire = HitRate missOnHitOne
    ∧ LookupCount missOnHitOne.swapHitExpire = LookupCount missOnHitOne :=
  ⟨⟨quiet_recorder, quiet_recorder,
      (expire_scored_as_hit 0 (recording, [])).1 quiet_recorder quiet_recorder⟩,
    (expire_scored_as_hit 0 (missOnHitOne, [])).2⟩

/-- Counterexample to C6 as stated: on `missOnHit`, whose hit callback records a miss,
one `IncrHitCount` leaves `LookupCount = 2` and the rate `1 / 2`, while one
`IncrExpireCount` from the same bank leaves `LookupCount = 1` and the rate `1 / 1`. -/
theorem hit_callback_breaks_symmetry :
    ∃ rh wh re we, IncrHitCount 1 (missOnHit, []) = some (rh, wh)
      ∧ IncrExpireCount 1 (missOnHit, []) = some (re, we)
      ∧ LookupCount wh.1 = 2 ∧ LookupCount we.1 = 1
      ∧ HitRate wh.1 = Rate.quot 1 2 ∧ HitRate we.1 = Rate.quot 1 1
      ∧ LookupCount wh.1 ≠ LookupCount we.1
      ∧ HitRate wh.1 ≠ HitRate we.1
      ∧ (HitRate wh.1).val ≠ (HitRate we.1).val := by
  refine ⟨_, _, _, _, rfl, rfl, by decide, by decide, by decide, by decide, by decide,
    by decide, ?_⟩
  have h1 : HitRate (⟨1, 1, 0, missOnHit.hitMetrics, missOnHit.missMetrics, none⟩ : stats)
      = Rate.quot 1 2 := by decide
  have h2 : HitRate (⟨0, 0, 1, missOnHit.hitMetrics, missOnHit.missMetrics, none⟩ : stats)
      = Rate.quot 1 1 := by decide
  show (HitRate (⟨1, 1, 0, missOnHit.hitMetrics, missOnHit.missMetrics, none⟩ : stats)).val
    ≠ (HitRate (⟨0, 0, 1, missOnHit.hitMetrics, missOnHit.missMetrics, none⟩ : stats)).val
  rw [h1, h2]
  norm_num [Rate.val]

/-! ## Monotonicity and frame -/

theorem run_sameMetrics (k : Kind) (depth : Nat) (w : World) (r : Nat) (w1 : World)
    (h : k.run depth w = some (r, w1)) (j : Kind) : j.metrics w1.1 = j.metrics w.1 := by
  have hrel : w1.1.hitMetrics = w.1.hitMetrics ∧ w1.1.missMetrics = w.1.missMetrics
      ∧ w1.1.expireMetrics = w.1.expireMetrics := by
    cases k
    · exact IncrHitCountBody_rel sameMetrics_closed _
        (perform_rel sameMetrics_closed depth) w r w1 h
    · exact IncrMissCountBody_rel sameMetrics_closed _
        (perform_rel sameMetrics_closed depth) w r w1 h
    · exact IncrExpireCountBody_rel sameMetrics_closed _
        (perform_rel sameMetrics_closed depth) w r w1 h
  cases j
  · exact hrel.1
  · exact hrel.2.1
  · exact hrel.2.2

theorem read_of_mem (op : Op)
    (hop : op ∈ [Op.HitCount, Op.MissCount, Op.ExpireCount, Op.LookupCount, Op.HitRate]) :
    op.isRead = true := by
  simp only [List.mem_cons, List.mem_singleton, List.not_mem_nil, or_false] at hop
  rcases hop with h | h | h | h | h <;> subst h <;> rfl

theorem isRead_or_incr (op : Op) : op.isRead = true ∨ ∃ k : Kind, op = k.incr := by
  cases op
  · exact Or.inr ⟨Kind.hit, rfl⟩
  · exact Or.inr ⟨Kind.miss, rfl⟩
  · exact Or.inr ⟨Kind.expire, rfl⟩
  all_goals exact Or.inl rfl

/-- C7, away from the wrap. For every bank and each of the eight methods: when the method
is an increment, suppose that its callback is nil or calls no increment and that the
counter it increments is below `2 ^ 64 - 1`. Then the method returns, and each of
`hitCount`, `missCount`, `expireCount` is afterwards greater than or equal to its value
before. -/
theorem counters_never_decrease (depth : Nat) (op : Op) (w : World)
    (hq : ∀ k : Kind, op = k.incr → quiet (k.metrics w.1) ∧ k.counter w.1 < 2 ^ 64 - 1) :
    ∃ v w1, perform (depth + 1) op w = some (v, w1)
      ∧ ∀ j : Kind, j.counter w.1 ≤ j.counter w1.1 := by
  rcases isRead_or_incr op with hr | ⟨k, hk⟩
  · obtain ⟨v, hv⟩ := perform_isRead (depth + 1) op hr w
    exact ⟨v, w, hv, fun j => Nat.le_refl _⟩
  · obtain ⟨hquiet, hlt⟩ := hq k hk
    obtain ⟨w1, hrun, hcnt, hoth, _⟩ := run_quiet k depth w hquiet
    refine ⟨_, w1, by rw [hk, perform_incr, hrun]; rfl, ?_⟩
    intro j
    by_cases hj : j = k
    · subst hj
      rw [hcnt, Nat.mod_eq_of_lt (by rw [u64_eq]; omega)]
      exact Nat.le_succ _
    · rw [hoth j hj]

/-- Witness for C7: `IncrHitCount` on the fresh bank. -/
theorem counters_never_decrease_witness :
    (∀ k : Kind, Op.IncrHitCount = k.incr →
        quiet (k.metrics stats.fresh) ∧ k.counter stats.fresh < 2 ^ 64 - 1)
    ∧ ∃ v w1, perform (0 + 1) Op.IncrHitCount (stats.fresh, []) = some (v, w1)
      ∧ ∀ j : Kind, j.counter stats.fresh ≤ j.counter w1.1 :=
  have hq : ∀ k : Kind, Op.IncrHitCount = k.incr →
      quiet (k.metrics stats.fresh) ∧ k.counter stats.fresh < 2 ^ 64 - 1 := by
    intro k _
    cases k <;> exact ⟨quiet_none, by decide⟩
  ⟨hq, counters_never_decrease 0 Op.IncrHitCount (stats.fresh, []) hq⟩

/-- Counterexample to C7 as stated: on `fullHits`, where `hitCount` is `2 ^ 64 - 1`,
`IncrHitCount` leaves `hitCount = 0`. -/
theorem IncrHitCount_wraps :
    ∃ v w1, perform 1 Op.IncrHitCount (fullHits, []) = some (v, w1)
      ∧ HitCount fullHits = 2 ^ 64 - 1
      ∧ HitCount w1.1 = 0
      ∧ ¬ HitCount fullHits ≤ HitCount w1.1 :=
  ⟨_, _, rfl, rfl, by decide, by decide⟩

/-- C8, for callbacks that stay out of the bank. For every bank and each increment: if the
callback of its kind is nil or calls no increment, the increment returns, its own counter
is the old value plus 1 modulo `2 ^ 64`, the two other counters and the three callback
slots are unchanged, every invocation it adds to the log is of its own callback, and with
a nil callback it adds none. Whatever the callbacks do, no increment that returns has
changed a callback slot. -/
theorem increment_frame (k : Kind) (depth : Nat) (w : World) :
    (quiet (k.metrics w.1) →
      ∃ r w1, k.run depth w = some (r, w1)
        ∧ k.counter w1.1 = (k.counter w.1 + 1) % 2 ^ 64
        ∧ (∀ j : Kind, j ≠ k → j.counter w1.1 = j.counter w.1)
        ∧ (∀ j : Kind, j.metrics w1.1 = j.metrics w.1)
        ∧ (∃ added, w1.2 = w.2 ++ added ∧ ∀ e ∈ added, e.kind = k)
        ∧ (k.metrics w.1 = none → w1.2 = w.2))
    ∧ (∀ r w1, k.run depth w = some (r, w1) →
        ∀ j : Kind, j.metrics w1.1 = j.metrics w.1) := by
  refine ⟨fun hq => ?_, fun r w1 h j => run_sameMetrics k depth w r w1 h j⟩
  obtain ⟨w1, hrun, hcnt, hoth, hmet, hlog⟩ := run_quiet k depth w hq
  refine ⟨_, w1, hrun, hcnt, hoth, hmet, ⟨_, hlog, ?_⟩, ?_⟩
  · intro e he
    split at he
    · rw [List.mem_singleton] at he
      rw [he]
    · cases he
  · intro hn
    rw [hlog, hn]
    simp

/-- Witness for C8: `IncrMissCount` on the bank of `TestStatsMetrics`. -/
theorem increment_frame_witness :
    quiet (Kind.miss.metrics recording)
    ∧ ∃ r w1, Kind.miss.run 0 (recording, []) = some (r, w1)
        ∧ Kind.miss.counter w1.1 = (Kind.miss.counter recording + 1) % 2 ^ 64
        ∧ (∀ j : Kind, j ≠ Kind.miss → j.counter w1.1 = j.counter recording)
        ∧ (∀ j : Kind, j.metrics w1.1 = j.metrics recording)
        ∧ (∃ added, w1.2 = [] ++ added ∧ ∀ e ∈ added, e.kind = Kind.miss)
        ∧ (Kind.miss.metrics recording = none → w1.2 = []) :=
  ⟨quiet_recorder, (increment_frame Kind.miss 0 (recording, [])).1 quiet_recorder⟩

/-- Counterexample to C8 as stated: on `missOnHit`, `IncrHitCount` takes `missCount` from
`0` to `1` and the miss callback is invoked. -/
theorem IncrHitCount_touches_miss :
    ∃ r w1, IncrHitCount 1 (missOnHit, []) = some (r, w1)
      ∧ MissCount missOnHit = 0
      ∧ MissCount w1.1 = 1
      ∧ w1.2 = [⟨Kind.hit, 1, 1⟩, ⟨Kind.miss, 1, 1⟩] :=
  ⟨_, _, rfl, rfl, rfl, rfl⟩

/-- C9. On every bank, each of `HitCount`, `MissCount`, `ExpireCount`, `LookupCount` and
`HitRate` returns and leaves the bank and the log of callback invocations exactly as they
were: no counter or callback slot changes and no callback is invoked. Called again with
no increment in between, it returns the same value. -/
theorem reads_change_nothing (depth : Nat) (op : Op)
    (hop : op ∈ [Op.HitCount, Op.MissCount, Op.ExpireCount, Op.LookupCount, Op.HitRate])
    (w : World) :
    ∃ v, perform depth op w = some (v, w)
      ∧ ∀ v1 w1 v2 w2, perform depth op w = some (v1, w1) →
          perform depth op w1 = some (v2, w2) → w1 = w ∧ w2 = w ∧ v2 = v1 := by
  obtain ⟨v, hv⟩ := perform_isRead depth op (read_of_mem op hop) w
  refine ⟨v, hv, ?_⟩
  intro v1 w1 v2 w2 h1 h2
  rw [hv] at h1
  simp only [Option.some.injEq, Prod.mk.injEq] at h1
  obtain ⟨hv1, hw1⟩ := h1
  subst hw1
  rw [hv] at h2
  simp only [Option.some.injEq, Prod.mk.injEq] at h2
  exact ⟨rfl, h2.2.symm, by rw [← h2.1, hv1]⟩

/-- Witness for C9: `HitRate` on the bank of `TestStatsMetrics` after
a hit has been logged. -/
theorem reads_change_nothing_witness :
    Op.HitRate ∈ [Op.HitCount, Op.MissCount, Op.ExpireCount, Op.LookupCount, Op.HitRate]
    ∧ ∃ v, perform 0 Op.HitRate ({ recording with hitCount := 1 }, [⟨Kind.hit, 1, 1⟩])
          = some (v, ({ recording with hitCount := 1 }, [⟨Kind.hit, 1, 1⟩]))
      ∧ ∀ v1 w1 v2 w2,
          perform 0 Op.HitRate ({ recording with hitCount := 1 }, [⟨Kind.hit, 1, 1⟩])
            = some (v1, w1) →
          perform 0 Op.HitRate w1 = some (v2, w2) →
          w1 = ({ recording with hitCount := 1 }, [⟨Kind.hit, 1, 1⟩])
            ∧ w2 = ({ recording with hitCount := 1 }, [⟨Kind.hit, 1, 1⟩]) ∧ v2 = v1 :=
  ⟨by decide, reads_change_nothing 0 Op.HitRate (by decide) _⟩

/-! ## Concurrent increments -/

theorem step_owes (k : Kind) (c : Caller) (w : World) :
    (c.step w).1.kind = c.kind
      ∧ (k.counter (c.step w).2.1 + owes k (c.step w).1) % u64
          = (k.counter w.1 + owes k c) % u64
      ∧ (k.counter w.1 < u64 → k.counter (c.step w).2.1 < u64) := by
  have hpos : 0 < u64 := by rw [u64_eq]; decide
  obtain ⟨ck, pc⟩ := c
  cases ck <;> cases pc <;> cases k <;>
    simp only [Caller.step, IncrHitCountStep, IncrMissCountStep, IncrExpireCountStep,
      owes, Kind.counter, and_self, and_true, true_and, if_true, if_false, reduceCtorEq,
      false_and, and_false, Nat.add_zero, Nat.mod_mod, implies_true, HitCount, MissCount,
      ExpireCount] <;>
    first
      | exact fun h => h
      | exact fun _ => Nat.mod_lt _ hpos
      | (split <;> simp)

theorem pending_set (k : Kind) (cs : List Caller) (i : Nat) (c d : Caller)
    (h : cs[i]? = some c) :
    pending k (cs.set i d) + owes k c = pending k cs + owes k d := by
  induction cs generalizing i with
  | nil => simp at h
  | cons a cs ih =>
    cases i with
    | zero =>
      simp only [List.getElem?_cons_zero, Option.some.injEq] at h
      subst h
      simp only [List.set_cons_zero, pending]
      omega
    | succ i =>
      simp only [List.getElem?_cons_succ] at h
      have := ih i h
      simp only [List.set_cons_succ, pending]
      omega

theorem pending_start (k : Kind) (ks : List Kind) :
    pending k (ks.map (fun j => (⟨j, Pc.add⟩ : Caller))) = ks.count k := by
  induction ks with
  | nil => rfl
  | cons j ks ih =>
    simp only [List.map_cons, pending, ih, owes, and_true, List.count_cons, beq_iff_eq]
    omega

theorem pending_finished (k : Kind) (cs : List Caller)
    (h : ∀ c ∈ cs, c.returned = true) : pending k cs = 0 := by
  induction cs with
  | nil => rfl
  | cons a cs ih =>
    have ha : a.returned = true := h a (List.mem_cons_self _ _)
    have hcs := ih (fun c hc => h c (List.mem_cons_of_mem _ hc))
    have hz : owes k a = 0 := by
      unfold owes
      rw [if_neg]
      rintro ⟨_, hp⟩
      rw [Caller.returned, hp] at ha
      cases ha
    simp only [pending, hz, hcs]

/-- Across any atomic step, counter plus callers still to add is constant modulo `2 ^ 64`. -/
theorem step_invariant (k : Kind) (m : Machine) (i : Nat) :
    (k.counter (m.step i).world.1 + pending k (m.step i).callers) % u64
        = (k.counter m.world.1 + pending k m.callers) % u64
      ∧ (k.counter m.world.1 < u64 → k.counter (m.step i).world.1 < u64) := by
  unfold Machine.step
  cases hc : m.callers[i]? with
  | none => exact ⟨rfl, fun h => h⟩
  | some c =>
    obtain ⟨_, hmod, hlt⟩ := step_owes k c m.world
    have hset := pending_set k m.callers i c (c.step m.world).1 hc
    refine ⟨?_, hlt⟩
    show (k.counter (c.step m.world).2.1
        + pending k (m.callers.set i (c.step m.world).1)) % u64
      = (k.counter m.world.1 + pending k m.callers) % u64
    rw [u64_eq] at hmod ⊢
    omega

theorem run_invariant (k : Kind) (schedule : List Nat) (m : Machine) :
    (k.counter (m.run schedule).world.1 + pending k (m.run schedule).callers) % u64
        = (k.counter m.world.1 + pending k m.callers) % u64
      ∧ (k.counter m.world.1 < u64 → k.counter (m.run schedule).world.1 < u64) := by
  induction schedule generalizing m with
  | nil => exact ⟨rfl, fun h => h⟩
  | cons i rest ih =>
    obtain ⟨h1, h2⟩ := step_invariant k m i
    obtain ⟨h3, h4⟩ := ih (m.step i)
    exact ⟨by
      show (k.counter ((m.step i).run rest).world.1
        + pending k ((m.step i).run rest).callers) % u64 = _
      rw [h3, h1], fun h => h4 (h2 h)⟩

/-- However the callers are interleaved, once all have returned each counter holds its
initial value plus the number of callers of its kind, modulo `2 ^ 64`. -/
theorem run_counts (w : World) (ks : List Kind) (schedule : List Nat) (k : Kind)
    (hwf : k.counter w.1 < u64)
    (hfin : ((Machine.start w ks).run schedule).finished) :
    k.counter ((Machine.start w ks).run schedule).world.1
      = (k.counter w.1 + ks.count k) % u64 := by
  obtain ⟨h1, h2⟩ := run_invariant k schedule (Machine.start w ks)
  rw [pending_finished k _ hfin] at h1
  have h3 : pending k (Machine.start w ks).callers = ks.count k := pending_start k ks
  rw [h3] at h1
  have h4 : k.counter ((Machine.start w ks).run schedule).world.1 < u64 := h2 hwf
  rw [Nat.add_zero, Nat.mod_eq_of_lt h4] at h1
  exact h1

theorem step_succ (w : World) (c : Caller) (cs : List Caller) (i : Nat) :
    (Machine.mk w (c :: cs)).step (i + 1)
      = ⟨((Machine.mk w cs).step i).world, c :: ((Machine.mk w cs).step i).callers⟩ := by
  simp only [Machine.step, List.getElem?_cons_succ]
  cases cs[i]? with
  | none => rfl
  | some d => rfl

theorem run_succ (w : World) (c : Caller) (cs : List Caller) (schedule : List Nat) :
    (Machine.mk w (c :: cs)).run (schedule.map (fun i => i + 1))
      = ⟨((Machine.mk w cs).run schedule).world,
          c :: ((Machine.mk w cs).run schedule).callers⟩ := by
  induction schedule generalizing w cs with
  | nil => rfl
  | cons i rest ih =>
    simp only [List.map_cons, Machine.run, List.foldl_cons, step_succ]
    exact ih _ _

theorem step_zero (w : World) (c : Caller) (cs : List Caller) :
    (Machine.mk w (c :: cs)).step 0 = ⟨(c.step w).2, (c.step w).1 :: cs⟩ := by
  simp [Machine.step]

/-- Four steps take a caller to its return, wherever it stands. -/
theorem four_steps (w : World) (c : Caller) (cs : List Caller) :
    ∃ w1 d, (Machine.mk w (c :: cs)).run [0, 0, 0, 0] = ⟨w1, d :: cs⟩
      ∧ d.returned = true := by
  refine ⟨((((c.step w).1.step (c.step w).2).1.step ((c.step w).1.step (c.step w).2).2).1.step
      (((c.step w).1.step (c.step w).2).1.step ((c.step w).1.step (c.step w).2).2).2).2,
    ((((c.step w).1.step (c.step w).2).1.step ((c.step w).1.step (c.step w).2).2).1.step
      (((c.step w).1.step (c.step w).2).1.step ((c.step w).1.step (c.step w).2).2).2).1,
    by simp only [Machine.run, List.foldl, step_zero], ?_⟩
  obtain ⟨k, pc⟩ := c
  cases k
  · cases hm : w.1.hitMetrics <;> cases pc <;>
      simp [Caller.step, IncrHitCountStep, hm, Caller.returned]
  · cases hm : w.1.missMetrics <;> cases pc <;>
      simp [Caller.step, IncrMissCountStep, hm, Caller.returned]
  · cases hm : w.1.expireMetrics <;> cases pc <;>
      simp [Caller.step, IncrExpireCountStep, hm, Caller.returned]

/-- The callers can always run to completion, one after the other. -/
theorem seqSchedule_finishes (cs : List Caller) (w : World) :
    ((Machine.mk w cs).run (seqSchedule cs.length)).finished := by
  induction cs generalizing w with
  | nil =>
    intro c hc
    cases hc
  | cons c cs ih =>
    obtain ⟨w1, d, hrun, hd⟩ := four_steps w c cs
    have hsplit : (Machine.mk w (c :: cs)).run (seqSchedule (c :: cs).length)
        = (Machine.mk w1 (d :: cs)).run ((seqSchedule cs.length).map (fun i => i + 1)) := by
      show List.foldl Machine.step _ ([0, 0, 0, 0] ++ _) = _
      rw [List.foldl_append]
      exact congrArg (fun m => List.foldl Machine.step m _) hrun
    rw [hsplit, run_succ]
    intro e he
    rcases List.mem_cons.mp he with h | h
    · rw [h]; exact hd
    · exact ih w1 e h

/-- A caller running alone takes the bank where the method itself takes it, and returns
the same value, when the callback of its kind is nil or calls no increment. -/
theorem solo_refines (k : Kind) (depth : Nat) (w : World) (hq : quiet (k.metrics w.1)) :
    ∃ r w1, k.run depth w = some (r, w1)
      ∧ (Machine.start w [k]).run [0, 0, 0, 0] = ⟨w1, [⟨k, Pc.done r⟩]⟩ := by
  cases k
  · cases hm : w.1.hitMetrics with
    | none =>
      exact ⟨_, _, IncrHitCount_nil depth w hm, by
        simp [Machine.start, Machine.run, step_zero, Caller.step, IncrHitCountStep, hm,
          HitCount]⟩
    | some f =>
      exact ⟨_, _, IncrHitCount_some depth w f hm (hq f hm), by
        simp [Machine.start, Machine.run, step_zero, Caller.step, IncrHitCountStep, hm,
          HitCount]⟩
  · cases hm : w.1.missMetrics with
    | none =>
      exact ⟨_, _, IncrMissCount_nil depth w hm, by
        simp [Machine.start, Machine.run, step_zero, Caller.step, IncrMissCountStep, hm,
          MissCount]⟩
    | some f =>
      exact ⟨_, _, IncrMissCount_some depth w f hm (hq f hm), by
        simp [Machine.start, Machine.run, step_zero, Caller.step, IncrMissCountStep, hm,
          MissCount]⟩
  · cases hm : w.1.expireMetrics with
    | none =>
      exact ⟨_, _, IncrExpireCount_nil depth w hm, by
        simp [Machine.start, Machine.run, step_zero, Caller.step, IncrExpireCountStep, hm,
          ExpireCount]⟩
    | some f =>
      exact ⟨_, _, IncrExpireCount_some depth w f hm (hq f hm), by
        simp [Machine.start, Machine.run, step_zero, Caller.step, IncrExpireCountStep, hm,
          ExpireCount]⟩

theorem start_finishes (w : World) (ks : List Kind) :
    ((Machine.start w ks).run (seqSchedule ks.length)).finished := by
  have h := seqSchedule_finishes (ks.map (fun k => (⟨k, Pc.add⟩ : Caller))) w
  rw [List.length_map] at h
  exact h

theorem count_replicate_other (N : Nat) (k j : Kind) (h : j ≠ k) :
    (List.replicate N k).count j = 0 := by
  rw [List.count_replicate]
  have : (k == j) = false := by
    rw [beq_eq_false_iff_ne]
    exact fun e => h e.symm
  rw [this]
  rfl

/-- C10, modulo `2 ^ 64`. Take a bank whose counters are 64-bit values and whose callbacks
are nil or call no increment, and `N` concurrent callers that each invoke the increment
of kind `k` once. The callers can all run to their return; for every interleaving of
their atomic steps, once all have returned the counter of kind `k` holds its initial
value plus `N` modulo `2 ^ 64` and the two other counters hold their initial values; and
a caller running alone does exactly what the method does. This holds for `IncrMissCount`,
`IncrHitCount` and `IncrExpireCount` alike. -/
theorem no_lost_update (w : World) (N : Nat) (k : Kind)
    (hwf : ∀ j : Kind, j.counter w.1 < 2 ^ 64)
    (hq : ∀ j : Kind, quiet (j.metrics w.1)) :
    (∃ schedule, ((Machine.start w (List.replicate N k)).run schedule).finished)
    ∧ (∀ schedule, ((Machine.start w (List.replicate N k)).run schedule).finished →
        k.counter ((Machine.start w (List.replicate N k)).run schedule).world.1
            = (k.counter w.1 + N) % 2 ^ 64
          ∧ ∀ j : Kind, j ≠ k →
              j.counter ((Machine.start w (List.replicate N k)).run schedule).world.1
                = j.counter w.1)
    ∧ (∃ r w1, k.run 0 w = some (r, w1)
        ∧ (Machine.start w [k]).run [0, 0, 0, 0] = ⟨w1, [⟨k, Pc.done r⟩]⟩) := by
  refine ⟨⟨_, start_finishes w _⟩, ?_, solo_refines k 0 w (hq k)⟩
  intro schedule hfin
  constructor
  · have h := run_counts w (List.replicate N k) schedule k (hwf k) hfin
    rw [List.count_replicate_self] at h
    exact h
  · intro j hj
    have h := run_counts w (List.replicate N k) schedule j (hwf j) hfin
    rw [count_replicate_other N k j hj, Nat.add_zero,
      Nat.mod_eq_of_lt (show j.counter w.1 < u64 from hwf j)] at h
    exact h

theorem recording_wf (j : Kind) : j.counter recording < 2 ^ 64 := by
  cases j <;> decide

theorem recording_quiet (j : Kind) : quiet (j.metrics recording) := by
  cases j <;> exact quiet_recorder

/-- Witness for C10: the `1000` callers of `TestStatsMetrics`, each invoking
`IncrMissCount` on the fresh bank with recording callbacks, run one after the other; the
final `MissCount` is `1000`. -/
theorem no_lost_update_witness :
    (∀ j : Kind, j.counter recording < 2 ^ 64)
    ∧ (∀ j : Kind, quiet (j.metrics recording))
    ∧ ((Machine.start (recording, []) (List.replicate 1000 Kind.miss)).run
        (seqSchedule 1000)).finished
    ∧ Kind.miss.counter ((Machine.start (recording, []) (List.replicate 1000 Kind.miss)).run
        (seqSchedule 1000)).world.1 = 1000 := by
  have hfin : ((Machine.start (recording, []) (List.replicate 1000 Kind.miss)).run
      (seqSchedule 1000)).finished := by
    have h := start_finishes (recording, []) (List.replicate 1000 Kind.miss)
    rw [List.length_replicate] at h
    exact h
  refine ⟨recording_wf, recording_quiet, hfin, ?_⟩
  have h := ((no_lost_update (recording, []) 1000 Kind.miss recording_wf recording_quiet).2.1
    (seqSchedule 1000) hfin).1
  rw [h]
  decide

/-- Counterexample to C10 as stated: two callers invoke `IncrMissCount` on `fullMisses`,
where `missCount` is `c = 2 ^ 64 - 1`; with their steps interleaved, both return and the
final `MissCount` is `1`, not `c + 2`. -/
theorem concurrent_misses_wrap :
    ((Machine.start (fullMisses, []) [Kind.miss, Kind.miss]).run
        [0, 1, 0, 1, 0, 1]).finished
    ∧ MissCount fullMisses = 2 ^ 64 - 1
    ∧ MissCount ((Machine.start (fullMisses, []) [Kind.miss, Kind.miss]).run
        [0, 1, 0, 1, 0, 1]).world.1 = 1
    ∧ MissCount ((Machine.start (fullMisses, []) [Kind.miss, Kind.miss]).run
        [0, 1, 0, 1, 0, 1]).world.1 ≠ MissCount fullMisses + 2 := by
  refine ⟨by decide, rfl, by decide, by decide⟩

/-! ## The hit rate as a fraction -/

/-- Exact value of `HitRate` when the three counters sum below `2 ^ 64`; on the bank
without lookups both sides are `0`. -/
theorem HitRate_val (st : stats)
    (hlt : st.hitCount + st.missCount + st.expireCount < u64) :
    (HitRate st).val = ((st.hitCount + st.expireCount : Nat) : ℚ)
      / ((st.hitCount + st.missCount + st.expireCount : Nat) : ℚ) := by
  by_cases h0 : st.hitCount + st.missCount + st.expireCount = 0
  · have hz : HitRate st = Rate.zero := by
      simp only [HitRate, HitCount, MissCount, ExpireCount]
      rw [Nat.mod_eq_of_lt (show st.hitCount + st.missCount < u64 by omega),
        Nat.mod_eq_of_lt hlt, if_pos h0]
    rw [hz, h0]
    simp [Rate.val]
  · rw [HitRate_of_lt st (Nat.pos_of_ne_zero h0) hlt]
    rfl

/-- C11. On every bank whose counters satisfy
`hitCount + missCount + expireCount < 2 ^ 64`, a division formed by `HitRate` has the
numerator `hitCount + expireCount` and the denominator
`hitCount + missCount + expireCount`, the numerator is at most the denominator, and the
value of `HitRate` lies between `0` and `1`. -/
theorem HitRate_fraction (st : stats)
    (hlt : st.hitCount + st.missCount + st.expireCount < 2 ^ 64) :
    (∀ num den, HitRate st = Rate.quot num den →
        num = st.hitCount + st.expireCount
          ∧ den = st.hitCount + st.missCount + st.expireCount ∧ num ≤ den)
    ∧ 0 ≤ (HitRate st).val ∧ (HitRate st).val ≤ 1 := by
  have hlt1 : st.hitCount + st.missCount + st.expireCount < u64 := hlt
  refine ⟨?_, ?_, ?_⟩
  · intro num den h
    by_cases h0 : st.hitCount + st.missCount + st.expireCount = 0
    · have hz : HitRate st = Rate.zero := by
        simp only [HitRate, HitCount, MissCount, ExpireCount]
        rw [Nat.mod_eq_of_lt (show st.hitCount + st.missCount < u64 by omega),
          Nat.mod_eq_of_lt hlt1, if_pos h0]
      rw [hz] at h
      cases h
    · rw [HitRate_of_lt st (Nat.pos_of_ne_zero h0) hlt1] at h
      cases h
      exact ⟨rfl, rfl, by omega⟩
  · rw [HitRate_val st hlt1]
    positivity
  · rw [HitRate_val st hlt1]
    apply div_le_one_of_le₀
    · exact_mod_cast (show st.hitCount + st.expireCount
        ≤ st.hitCount + st.missCount + st.expireCount by omega)
    · positivity

/-- Witness for C11: the first case of `TestStats`, three hits and one miss. -/
theorem HitRate_fraction_witness :
    (3 + 1 + 0 < 2 ^ 64)
    ∧ (HitRate ⟨3, 1, 0, none, none, none⟩ = Rate.quot 3 4 ∧ 3 ≤ 4)
    ∧ 0 ≤ (HitRate ⟨3, 1, 0, none, none, none⟩).val
    ∧ (HitRate ⟨3, 1, 0, none, none, none⟩).val ≤ 1 :=
  ⟨by decide,
    ⟨by decide, ((HitRate_fraction ⟨3, 1, 0, none, none, none⟩ (by decide)).1 3 4
      (by decide)).2.2⟩,
    (HitRate_fraction ⟨3, 1, 0, none, none, none⟩ (by decide)).2⟩

/-- Endpoints of the exact quotient: when the counters sum below `2 ^ 64`, it is `0`
exactly when `hitCount + expireCount = 0`, and `1` exactly when `missCount = 0` and
`hitCount + expireCount > 0`. -/
theorem HitRate_val_endpoints (st : stats)
    (hlt : st.hitCount + st.missCount + st.expireCount < 2 ^ 64) :
    ((HitRate st).val = 0 ↔ st.hitCount + st.expireCount = 0)
    ∧ ((HitRate st).val = 1 ↔ st.missCount = 0 ∧ 0 < st.hitCount + st.expireCount) := by
  have hlt1 : st.hitCount + st.missCount + st.expireCount < u64 := hlt
  rw [HitRate_val st hlt1]
  constructor
  · rw [div_eq_zero_iff]
    constructor
    · rintro (h | h)
      · exact_mod_cast h
      · have h1 : st.hitCount + st.missCount + st.expireCount = 0 := by exact_mod_cast h
        omega
    · intro h
      left
      exact_mod_cast h
  · constructor
    · intro h
      have hne : ((st.hitCount + st.missCount + st.expireCount : Nat) : ℚ) ≠ 0 := by
        intro hz
        rw [hz, div_zero] at h
        exact zero_ne_one h
      rw [div_eq_one_iff_eq hne] at h
      have h1 : st.hitCount + st.expireCount
          = st.hitCount + st.missCount + st.expireCount := by exact_mod_cast h
      have h2 : st.hitCount + st.missCount + st.expireCount ≠ 0 := by exact_mod_cast hne
      omega
    · rintro ⟨hm, hpos⟩
      have hne : ((st.hitCount + st.missCount + st.expireCount : Nat) : ℚ) ≠ 0 := by
        have h2 : st.hitCount + st.missCount + st.expireCount ≠ 0 := by omega
        exact_mod_cast h2
      rw [div_eq_one_iff_eq hne, hm, Nat.add_zero]

/-! ## The hit rate across one increment -/

theorem frac_up (n t : Nat) (h : n ≤ t) :
    ((n : Nat) : ℚ) / ((t : Nat) : ℚ) ≤ ((n + 1 : Nat) : ℚ) / ((t + 1 : Nat) : ℚ) := by
  rcases Nat.eq_zero_or_pos t with ht | ht
  · subst ht
    have hn : n = 0 := Nat.le_zero.mp h
    subst hn
    norm_num
  · have h1 : (0 : ℚ) < ((t : Nat) : ℚ) := by exact_mod_cast ht
    have h2 : (0 : ℚ) < ((t + 1 : Nat) : ℚ) := by exact_mod_cast Nat.succ_pos t
    rw [div_le_div_iff₀ h1 h2]
    have h3 : n * (t + 1) ≤ (n + 1) * t := by nlinarith
    exact_mod_cast h3

theorem frac_down (n t : Nat) (h : n ≤ t) :
    ((n : Nat) : ℚ) / ((t + 1 : Nat) : ℚ) ≤ ((n : Nat) : ℚ) / ((t : Nat) : ℚ) := by
  rcases Nat.eq_zero_or_pos t with ht | ht
  · subst ht
    have hn : n = 0 := Nat.le_zero.mp h
    subst hn
    norm_num
  · have h1 : (0 : ℚ) < ((t : Nat) : ℚ) := by exact_mod_cast ht
    have h2 : (0 : ℚ) < ((t + 1 : Nat) : ℚ) := by exact_mod_cast Nat.succ_pos t
    rw [div_le_div_iff₀ h2 h1]
    have h3 : n * t ≤ n * (t + 1) := by nlinarith
    exact_mod_cast h3

/-- Value of `HitRate` on the bank an increment leaves, when its callback is nil or calls
no increment and the counters sum below `2 ^ 64 - 1`. -/
theorem HitRate_after (k : Kind) (depth : Nat) (w : World)
    (hlt : w.1.hitCount + w.1.missCount + w.1.expireCount < u64 - 1)
    (hq : quiet (k.metrics w.1)) :
    ∃ r w1, k.run depth w = some (r, w1)
      ∧ (HitRate w1.1).val
        = ((w.1.hitCount + w.1.expireCount + (if k = Kind.miss then 0 else 1) : Nat) : ℚ)
          / ((w.1.hitCount + w.1.missCount + w.1.expireCount + 1 : Nat) : ℚ) := by
  have hu := u64_eq
  obtain ⟨w1, hrun, hcnt, hoth, _⟩ := run_quiet k depth w hq
  refine ⟨_, w1, hrun, ?_⟩
  cases k
  · have h1 : w1.1.hitCount = w.1.hitCount + 1 := by
      have : w1.1.hitCount = (w.1.hitCount + 1) % u64 := hcnt
      rw [this, Nat.mod_eq_of_lt (by omega)]
    have h2 : w1.1.missCount = w.1.missCount := hoth Kind.miss (by decide)
    have h3 : w1.1.expireCount = w.1.expireCount := hoth Kind.expire (by decide)
    rw [HitRate_val w1.1 (by rw [h1, h2, h3]; omega), h1, h2, h3]
    simp only [reduceCtorEq, if_false]
    congr 2 <;> omega
  · have h1 : w1.1.hitCount = w.1.hitCount := hoth Kind.hit (by decide)
    have h2 : w1.1.missCount = w.1.missCount + 1 := by
      have : w1.1.missCount = (w.1.missCount + 1) % u64 := hcnt
      rw [this, Nat.mod_eq_of_lt (by omega)]
    have h3 : w1.1.expireCount = w.1.expireCount := hoth Kind.expire (by decide)
    rw [HitRate_val w1.1 (by rw [h1, h2, h3]; omega), h1, h2, h3]
    simp only [if_true]
    congr 2
    omega
  · have h1 : w1.1.hitCount = w.1.hitCount := hoth Kind.hit (by decide)
    have h2 : w1.1.missCount = w.1.missCount := hoth Kind.miss (by decide)
    have h3 : w1.1.expireCount = w.1.expireCount + 1 := by
      have : w1.1.expireCount = (w.1.expireCount + 1) % u64 := hcnt
      rw [this, Nat.mod_eq_of_lt (by omega)]
    rw [HitRate_val w1.1 (by rw [h1, h2, h3]; omega), h1, h2, h3]
    simp only [reduceCtorEq, if_false]
    congr 2

/-- C13, for callbacks that stay out of the bank. On every bank whose counters sum to less
than `2 ^ 64 - 1`, an increment whose callback is nil or calls no increment returns, and
the exact value of `HitRate` on the bank it leaves is greater than or equal to the value
before for `IncrHitCount` and `IncrExpireCount`, and less than or equal to the value
before for `IncrMissCount`. -/
theorem HitRate_monotone (k : Kind) (depth : Nat) (w : World)
    (hlt : w.1.hitCount + w.1.missCount + w.1.expireCount < 2 ^ 64 - 1)
    (hq : quiet (k.metrics w.1)) :
    ∃ r w1, k.run depth w = some (r, w1)
      ∧ (k = Kind.hit ∨ k = Kind.expire → (HitRate w.1).val ≤ (HitRate w1.1).val)
      ∧ (k = Kind.miss → (HitRate w1.1).val ≤ (HitRate w.1).val) := by
  have hu := u64_eq
  have hlt1 : w.1.hitCount + w.1.missCount + w.1.expireCount < u64 - 1 := hlt
  obtain ⟨r, w1, hrun, hval⟩ := HitRate_after k depth w hlt1 hq
  have hle : w.1.hitCount + w.1.expireCount
      ≤ w.1.hitCount + w.1.missCount + w.1.expireCount := by omega
  refine ⟨r, w1, hrun, ?_, ?_⟩
  · intro hk
    have hne : k ≠ Kind.miss := by
      rcases hk with h | h <;> rw [h] <;> decide
    rw [hval, if_neg hne, HitRate_val w.1 (by omega)]
    exact frac_up _ _ hle
  · intro hk
    rw [hval, if_pos hk, HitRate_val w.1 (by omega), Nat.add_zero]
    exact frac_down _ _ hle

/-- Witness for C13: the three increments on the bank of `TestStatsMetrics`. -/
theorem HitRate_monotone_witness :
    (recording.hitCount + recording.missCount + recording.expireCount < 2 ^ 64 - 1)
    ∧ (quiet (Kind.hit.metrics recording)
      ∧ ∃ r w1, Kind.hit.run 0 (recording, []) = some (r, w1)
        ∧ (Kind.hit = Kind.hit ∨ Kind.hit = Kind.expire →
            (HitRate recording).val ≤ (HitRate w1.1).val)
        ∧ (Kind.hit = Kind.miss → (HitRate w1.1).val ≤ (HitRate recording).val))
    ∧ (quiet (Kind.miss.metrics recording)
      ∧ ∃ r w1, Kind.miss.run 0 (recording, []) = some (r, w1)
        ∧ (Kind.miss = Kind.hit ∨ Kind.miss = Kind.expire →
            (HitRate recording).val ≤ (HitRate w1.1).val)
        ∧ (Kind.miss = Kind.miss → (HitRate w1.1).val ≤ (HitRate recording).val))
    ∧ (quiet (Kind.expire.metrics recording)
      ∧ ∃ r w1, Kind.expire.run 0 (recording, []) = some (r, w1)
        ∧ (Kind.expire = Kind.hit ∨ Kind.expire = Kind.expire →
            (HitRate recording).val ≤ (HitRate w1.1).val)
        ∧ (Kind.expire = Kind.miss → (HitRate w1.1).val ≤ (HitRate recording).val)) :=
  ⟨by decide,
    ⟨quiet_recorder, HitRate_monotone Kind.hit 0 (recording, []) (by decide) quiet_recorder⟩,
    ⟨quiet_recorder, HitRate_monotone Kind.miss 0 (recording, []) (by decide) quiet_recorder⟩,
    ⟨quiet_recorder,
      HitRate_monotone Kind.expire 0 (recording, []) (by decide) quiet_recorder⟩⟩

/-- Counterexample to C13 as stated: on `missOnHitOne`, where one hit is counted and the
hit callback records a miss, the rate is `1 / 1` before `IncrHitCount` and `2 / 3` after
it. -/
theorem hit_lowers_rate :
    missOnHitOne.hitCount + missOnHitOne.missCount + missOnHitOne.expireCount < 2 ^ 64 - 1
    ∧ ∃ r w1, IncrHitCount 1 (missOnHitOne, []) = some (r, w1)
      ∧ HitRate missOnHitOne = Rate.quot 1 1
      ∧ HitRate w1.1 = Rate.quot 2 3
      ∧ (HitRate w1.1).val < (HitRate missOnHitOne).val := by
  refine ⟨by decide, _, _, rfl, by decide, by decide, ?_⟩
  have h1 : HitRate missOnHitOne = Rate.quot 1 1 := by decide
  have h2 : HitRate (⟨2, 1, 0, missOnHit.hitMetrics, missOnHit.missMetrics, none⟩ : stats)
      = Rate.quot 2 3 := by decide
  show (HitRate (⟨2, 1, 0, missOnHit.hitMetrics, missOnHit.missMetrics, none⟩ : stats)).val
    < (HitRate missOnHitOne).val
  rw [h1, h2]
  norm_num [Rate.val]

/-! ## The `float64` returned by `HitRate` -/

theorem log2_eq_of (n k : Nat) (h1 : 2 ^ k ≤ n) (h2 : n < 2 ^ (k + 1)) : Nat.log2 n = k := by
  have hn : n ≠ 0 := by
    have : 0 < 2 ^ k := Nat.pow_pos (by decide)
    omega
  have ha : k ≤ Nat.log2 n := (Nat.le_log2 hn).2 h1
  have hb : Nat.log2 n < k + 1 := (Nat.log2_lt hn).2 h2
  omega

/-- The rounded quotient is the truncated one or its successor. -/
theorem roundHalfEven_cases (n d : Nat) :
    roundHalfEven n d = n / d ∨ roundHalfEven n d = n / d + 1 := by
  unfold roundHalfEven
  split_ifs <;> simp

theorem roundHalfEven_ge (n d : Nat) : n / d ≤ roundHalfEven n d := by
  rcases roundHalfEven_cases n d with h | h <;> rw [h]
  exact Nat.le_succ _

theorem roundHalfEven_exact (q d : Nat) (hd : 0 < d) : roundHalfEven (d * q) d = q := by
  unfold roundHalfEven
  rw [Nat.mul_mod_right, Nat.mul_div_cancel_left q hd, if_pos (by omega)]

theorem f64OfNat_zero : f64OfNat 0 = 0 := by
  unfold f64OfNat
  rw [Nat.log2_zero, if_pos (by decide)]

theorem f64OfNat_pos (n : Nat) (h : 0 < n) : 0 < f64OfNat n := by
  unfold f64OfNat
  split_ifs with hl
  · exact h
  · have hn : n ≠ 0 := Nat.pos_iff_ne_zero.mp h
    have h1 : 2 ^ (Nat.log2 n - 52) ≤ 2 ^ Nat.log2 n :=
      Nat.pow_le_pow_right (by decide) (Nat.sub_le _ _)
    have h2 : 2 ^ (Nat.log2 n - 52) ≤ n := Nat.le_trans h1 (Nat.log2_self_le hn)
    have hp : 0 < 2 ^ (Nat.log2 n - 52) := Nat.pow_pos (by decide)
    have h3 : 0 < n / 2 ^ (Nat.log2 n - 52) := Nat.div_pos h2 hp
    exact Nat.mul_pos (Nat.lt_of_lt_of_le h3 (roundHalfEven_ge _ _)) hp

theorem f64OfNat_eq_zero (n : Nat) : f64OfNat n = 0 ↔ n = 0 := by
  constructor
  · intro h
    rcases Nat.eq_zero_or_pos n with hn | hn
    · exact hn
    · have := f64OfNat_pos n hn
      omega
  · intro h
    rw [h, f64OfNat_zero]

theorem quotExp_le (a b : Nat) :
    quotExp a b ≤ (Nat.log2 a : Int) - (Nat.log2 b : Int) := by
  unfold quotExp
  split_ifs <;> omega

/-- The significand of a quotient of positive operands is positive. -/
theorem quotSig_pos (a b : Nat) (ha : 0 < a) (hb : 0 < b) : 0 < quotSig a b := by
  have hle := quotExp_le a b
  have ha0 : a ≠ 0 := Nat.pos_iff_ne_zero.mp ha
  have h1 : 2 ^ Nat.log2 a ≤ a := Nat.log2_self_le ha0
  have h2 : b < 2 ^ (Nat.log2 b + 1) := Nat.lt_log2_self
  have hexp : Nat.log2 b + 1 + (quotExp a b - 52).toNat
      ≤ Nat.log2 a + (52 - quotExp a b).toNat := by omega
  have hlow : b * 2 ^ (quotExp a b - 52).toNat ≤ a * 2 ^ (52 - quotExp a b).toNat := by
    calc b * 2 ^ (quotExp a b - 52).toNat
        ≤ 2 ^ (Nat.log2 b + 1) * 2 ^ (quotExp a b - 52).toNat :=
          Nat.mul_le_mul_right _ (Nat.le_of_lt h2)
      _ = 2 ^ (Nat.log2 b + 1 + (quotExp a b - 52).toNat) := (Nat.pow_add _ _ _).symm
      _ ≤ 2 ^ (Nat.log2 a + (52 - quotExp a b).toNat) :=
          Nat.pow_le_pow_right (by decide) hexp
      _ = 2 ^ Nat.log2 a * 2 ^ (52 - quotExp a b).toNat := Nat.pow_add _ _ _
      _ ≤ a * 2 ^ (52 - quotExp a b).toNat := Nat.mul_le_mul_right _ h1
  have hd : 0 < b * 2 ^ (quotExp a b - 52).toNat :=
    Nat.mul_pos hb (Nat.pow_pos (by decide))
  unfold quotSig
  exact Nat.lt_of_lt_of_le (Nat.div_pos hlow hd) (roundHalfEven_ge _ _)

/-- A quotient of `float64` is `0` only when its numerator is. -/
theorem f64Div_eq_zero (a b : Nat) (hb : 0 < b) : f64Div a b = 0 ↔ a = 0 := by
  unfold f64Div
  constructor
  · intro h
    by_contra ha
    rw [if_neg ha] at h
    have hs : (0 : ℚ) < (quotSig a b : ℚ) := by
      exact_mod_cast quotSig_pos a b (Nat.pos_of_ne_zero ha) hb
    have hz : (0 : ℚ) < 2 ^ (quotExp a b - 52) := zpow_pos (by norm_num) _
    have := mul_pos hs hz
    rw [h] at this
    exact lt_irrefl _ this
  · intro h
    rw [if_pos h]

theorem quotExp_self (a : Nat) : quotExp a a = 0 := by
  unfold quotExp
  simp

theorem f64Div_self (a : Nat) (ha : 0 < a) : f64Div a a = 1 := by
  have hs : quotSig a a = 2 ^ 52 := by
    unfold quotSig
    rw [quotExp_self]
    have h1 : ((52 : Int) - 0).toNat = 52 := by decide
    have h2 : ((0 : Int) - 52).toNat = 0 := by decide
    rw [h1, h2, Nat.pow_zero, Nat.mul_one]
    exact roundHalfEven_exact _ _ ha
  unfold f64Div
  rw [if_neg (Nat.pos_iff_ne_zero.mp ha), hs, quotExp_self]
  norm_num

/-- The conversion is exact on integers of at most 53 bits. -/
theorem f64OfNat_exact (n : Nat) (h : n < 2 ^ 53) : f64OfNat n = n := by
  unfold f64OfNat
  rw [if_pos]
  rcases Nat.eq_zero_or_pos n with hn | hn
  · rw [hn, Nat.log2_zero]
    decide
  · have := (Nat.log2_lt (Nat.pos_iff_ne_zero.mp hn)).2 h
    omega

/-- The first case of `TestStats`: three hits and one miss give the `float64` `0.75`. -/
theorem f64_three_quarters : (HitRate ⟨3, 1, 0, none, none, none⟩).f64 = 3 / 4 := by
  have hr : HitRate ⟨3, 1, 0, none, none, none⟩ = Rate.quot 3 4 := by decide
  have l3 : Nat.log2 3 = 1 := log2_eq_of 3 1 (by decide) (by decide)
  have l4 : Nat.log2 4 = 2 := log2_eq_of 4 2 (by decide) (by decide)
  have he : quotExp 3 4 = -1 := by
    unfold quotExp
    rw [l3, l4]
    decide
  have hs : quotSig 3 4 = 6755399441055744 := by
    unfold quotSig
    rw [he]
    decide
  rw [hr, Rate.f64, f64OfNat_exact 3 (by decide), f64OfNat_exact 4 (by decide), f64Div,
    if_neg (by decide), hs, he]
  norm_num

theorem HitRate_f64_zero (st : stats)
    (hlt : st.hitCount + st.missCount + st.expireCount < u64) :
    (HitRate st).f64 = 0 ↔ st.hitCount + st.expireCount = 0 := by
  by_cases h0 : st.hitCount + st.missCount + st.expireCount = 0
  · have hz : HitRate st = Rate.zero := by
      simp only [HitRate, HitCount, MissCount, ExpireCount]
      rw [Nat.mod_eq_of_lt (show st.hitCount + st.missCount < u64 by omega),
        Nat.mod_eq_of_lt hlt, if_pos h0]
    rw [hz]
    exact ⟨fun _ => by omega, fun _ => rfl⟩
  · rw [HitRate_of_lt st (Nat.pos_of_ne_zero h0) hlt]
    show f64Div (f64OfNat (st.hitCount + st.expireCount))
        (f64OfNat (st.hitCount + st.missCount + st.expireCount)) = 0 ↔ _
    rw [f64Div_eq_zero _ _ (f64OfNat_pos _ (Nat.pos_of_ne_zero h0)), f64OfNat_eq_zero]

theorem HitRate_f64_one (st : stats)
    (hlt : st.hitCount + st.missCount + st.expireCount < u64)
    (hm : st.missCount = 0) (hpos : 0 < st.hitCount + st.expireCount) :
    (HitRate st).f64 = 1 := by
  rw [HitRate_of_lt st (by omega) hlt, hm, Nat.add_zero]
  exact f64Div_self _ (f64OfNat_pos _ hpos)

/-- C12, up to the rounding of `float64`. On every bank whose counters satisfy
`hitCount + missCount + expireCount < 2 ^ 64`: the `float64` that `HitRate` returns is `0`
exactly when `hitCount + expireCount = 0`, and it is `1` whenever `missCount = 0` and
`hitCount + expireCount > 0`; the exact quotient, before rounding, is `0` exactly when
`hitCount + expireCount = 0` and `1` exactly when `missCount = 0` and
`hitCount + expireCount > 0`. -/
theorem HitRate_endpoints (st : stats)
    (hlt : st.hitCount + st.missCount + st.expireCount < 2 ^ 64) :
    ((HitRate st).f64 = 0 ↔ st.hitCount + st.expireCount = 0)
    ∧ (st.missCount = 0 ∧ 0 < st.hitCount + st.expireCount → (HitRate st).f64 = 1)
    ∧ ((HitRate st).val = 0 ↔ st.hitCount + st.expireCount = 0)
    ∧ ((HitRate st).val = 1 ↔ st.missCount = 0 ∧ 0 < st.hitCount + st.expireCount) :=
  ⟨HitRate_f64_zero st hlt, fun h => HitRate_f64_one st hlt h.1 h.2,
    (HitRate_val_endpoints st hlt).1, (HitRate_val_endpoints st hlt).2⟩

/-- Witness for C12: the cases of `TestStats` at the endpoints, one miss, no lookup at all,
and three hits, with the `float64` the test compares. -/
theorem HitRate_endpoints_witness :
    (0 + 1 + 0 < 2 ^ 64 ∧ (HitRate ⟨0, 1, 0, none, none, none⟩).f64 = 0
      ∧ (HitRate ⟨0, 1, 0, none, none, none⟩).val = 0)
    ∧ (0 + 0 + 0 < 2 ^ 64 ∧ (HitRate stats.fresh).f64 = 0 ∧ (HitRate stats.fresh).val = 0)
    ∧ (3 + 0 + 0 < 2 ^ 64 ∧ (HitRate ⟨3, 0, 0, none, none, none⟩).f64 = 1
      ∧ (HitRate ⟨3, 0, 0, none, none, none⟩).val = 1) :=
  ⟨⟨by decide, (HitRate_endpoints ⟨0, 1, 0, none, none, none⟩ (by decide)).1.mpr rfl,
      (HitRate_endpoints ⟨0, 1, 0, none, none, none⟩ (by decide)).2.2.1.mpr rfl⟩,
    ⟨by decide, (HitRate_endpoints stats.fresh (by decide)).1.mpr rfl,
      (HitRate_endpoints stats.fresh (by decide)).2.2.1.mpr rfl⟩,
    ⟨by decide,
      (HitRate_endpoints ⟨3, 0, 0, none, none, none⟩ (by decide)).2.1 ⟨rfl, by decide⟩,
      (HitRate_endpoints ⟨3, 0, 0, none, none, none⟩ (by decide)).2.2.2.mpr
        ⟨rfl, by decide⟩⟩⟩

/-- Counterexample to C12 as stated: on `manyHitsOneMiss`, with `2 ^ 60` hits and one
miss, `float64(2 ^ 60 + 1)` rounds to `2 ^ 60`, so `HitRate` returns `1` although
`missCount` is `1`; the exact quotient is below `1`. -/
theorem HitRate_rounds_to_one :
    manyHitsOneMiss.hitCount + manyHitsOneMiss.missCount + manyHitsOneMiss.expireCount
        < 2 ^ 64
    ∧ HitRate manyHitsOneMiss = Rate.quot (2 ^ 60) (2 ^ 60 + 1)
    ∧ f64OfNat (2 ^ 60 + 1) = 2 ^ 60
    ∧ (HitRate manyHitsOneMiss).f64 = 1
    ∧ manyHitsOneMiss.missCount ≠ 0
    ∧ ¬ ((HitRate manyHitsOneMiss).f64 = 1 ↔
        manyHitsOneMiss.missCount = 0
          ∧ 0 < manyHitsOneMiss.hitCount + manyHitsOneMiss.expireCount)
    ∧ (HitRate manyHitsOneMiss).val < 1 := by
  have hr : HitRate manyHitsOneMiss = Rate.quot (2 ^ 60) (2 ^ 60 + 1) := by decide
  have la : Nat.log2 (2 ^ 60) = 60 := Nat.log2_two_pow
  have lb : Nat.log2 (2 ^ 60 + 1) = 60 := log2_eq_of _ 60 (by decide) (by decide)
  have ha : f64OfNat (2 ^ 60) = 2 ^ 60 := by
    unfold f64OfNat
    rw [la]
    decide
  have hb : f64OfNat (2 ^ 60 + 1) = 2 ^ 60 := by
    unfold f64OfNat
    rw [lb]
    decide
  have hone : (HitRate manyHitsOneMiss).f64 = 1 := by
    rw [hr, Rate.f64, ha, hb]
    exact f64Div_self _ (by decide)
  refine ⟨by decide, hr, hb, hone, by decide, ?_, ?_⟩
  · intro h
    have := (h.mp hone).1
    revert this
    decide
  · rw [hr]
    norm_num [Rate.val]

/-- The rounded quotient is within half a unit of `n / d`, on either side. -/
theorem roundHalfEven_near (n d : Nat) (hd : 0 < d) :
    2 * (roundHalfEven n d * d - n) ≤ d ∧ 2 * (n - roundHalfEven n d * d) ≤ d := by
  have hsplit : n = n / d * d + n % d := by
    have h := Nat.div_add_mod n d
    rw [Nat.mul_comm] at h
    exact h.symm
  have hr : n % d < d := Nat.mod_lt n hd
  have hsucc : (n / d + 1) * d = n / d * d + d := Nat.succ_mul _ _
  unfold roundHalfEven
  split_ifs with h1 h2 h3
  · constructor <;> omega
  · rw [hsucc]; constructor <;> omega
  · constructor <;> omega
  · rw [hsucc]; constructor <;> omega

/-- On a tie the rounded quotient is even. -/
theorem roundHalfEven_tie (n d : Nat) (h : 2 * (n % d) = d) : roundHalfEven n d % 2 = 0 := by
  unfold roundHalfEven
  rw [if_neg (by omega), if_neg (by omega)]
  split_ifs with h3
  · exact h3
  · omega

end Gcache
